import Mathlib

/-!
Verification development for the hermes-docgen extraction-and-rendering core.

The definitions below are a shallow embedding, translated from the TypeScript
sources under `src/markdown` (formatter) and `src/parser` (extractor).
JavaScript strings are modelled by Lean `String` (lists of characters);
JavaScript regular-expression behaviour is modelled for the concrete patterns
appearing in the source, with character classes restricted to their ASCII
meaning (the code only feeds it identifiers and doc-comment text).
-/

/-! ## Character-level models of the JavaScript string primitives -/

/-- Model of the JavaScript regex class `\w` (ASCII word characters). -/
def jsIsWordChar (c : Char) : Bool :=
  (97 ≤ c.toNat && c.toNat ≤ 122) || (65 ≤ c.toNat && c.toNat ≤ 90) ||
    (48 ≤ c.toNat && c.toNat ≤ 57) || c.toNat == 95

/-- Model of the JavaScript regex class `\s` (the ASCII whitespace characters:
space, tab, line feed, carriage return, vertical tab, form feed). -/
def jsIsSpace (c : Char) : Bool :=
  c.toNat == 32 || c.toNat == 9 || c.toNat == 10 || c.toNat == 13 ||
    c.toNat == 11 || c.toNat == 12

/-- Characters the JavaScript regex `.` does not match (line terminators). -/
def jsIsNewline (c : Char) : Bool :=
  c.toNat == 10 || c.toNat == 13 || c.toNat == 8232 || c.toNat == 8233

/-- `String.prototype.trim`: strip leading and trailing whitespace. -/
def jsTrimChars (l : List Char) : List Char :=
  ((l.dropWhile jsIsSpace).reverse.dropWhile jsIsSpace).reverse

/-- `String.prototype.trim` on strings. -/
def jsTrim (s : String) : String :=
  ⟨jsTrimChars s.data⟩

/-! ## The slug utility (`getSlug` in `src/markdown/formatters/utils.ts` and
`src/markdown/formatter.ts`, both copies are identical)

```ts
lowercase, then strip the class complementary to word chars, whitespace and
hyphen, then whitespace runs to single "-", then hyphen runs to single "-".
```
-/

/-- The character filter of `.replace(/[^\w\s-]/g, "")`: characters that are
kept (word characters, whitespace, hyphen). -/
def keepChar (c : Char) : Bool :=
  jsIsWordChar c || jsIsSpace c || c == '-'

/-- Replace every maximal run of characters satisfying `p` by the single
character `rep`; models `.replace(/p+/g, rep)`.  The boolean argument records
whether the previous character was part of a run. -/
def collapseRunsAux (p : Char → Bool) (rep : Char) : Bool → List Char → List Char
  | _, [] => []
  | inRun, c :: rest =>
    if p c then
      if inRun then collapseRunsAux p rep true rest
      else rep :: collapseRunsAux p rep true rest
    else c :: collapseRunsAux p rep false rest

/-- `.replace(/\s+/g, "-")`. -/
def collapseSpaces (l : List Char) : List Char :=
  collapseRunsAux jsIsSpace '-' false l

/-- The hyphen-run collapsing pass of `getSlug`. -/
def collapseHyphens (l : List Char) : List Char :=
  collapseRunsAux (fun c => c == '-') '-' false l

/-- `getSlug` from the source: lowercase, strip every character that is not a
word character, whitespace or hyphen, turn whitespace runs into single hyphens,
collapse hyphen runs.  `Char.toLower` is the ASCII case folding, which is how
`toLowerCase` acts on the ASCII range. -/
def getSlug (text : String) : String :=
  ⟨collapseHyphens (collapseSpaces ((text.data.map Char.toLower).filter keepChar))⟩

/-! ### Character lemmas -/

theorem char_toLower_toNat_of_upper (c : Char) (h1 : 65 ≤ c.toNat) (h2 : c.toNat ≤ 90) :
    (Char.toLower c).toNat = c.toNat + 32 := by
  have hv : (c.toNat + 32).isValidChar := by
    left
    omega
  simp only [Char.toLower, if_pos (And.intro h1 h2)]
  unfold Char.ofNat
  rw [dif_pos hv]
  rfl

theorem char_toLower_of_not_upper (c : Char) (h : ¬(65 ≤ c.toNat ∧ c.toNat ≤ 90)) :
    Char.toLower c = c := by
  simp only [Char.toLower, if_neg h]

theorem char_toLower_idem (c : Char) : Char.toLower (Char.toLower c) = Char.toLower c := by
  by_cases h : 65 ≤ c.toNat ∧ c.toNat ≤ 90
  · have h1 := char_toLower_toNat_of_upper c h.1 h.2
    apply char_toLower_of_not_upper
    omega
  · rw [char_toLower_of_not_upper c h]
    exact char_toLower_of_not_upper c h

theorem word_not_space (c : Char) (h : jsIsWordChar c = true) : jsIsSpace c = false := by
  simp only [jsIsWordChar, Bool.or_eq_true, Bool.and_eq_true, decide_eq_true_eq,
    beq_iff_eq] at h
  simp only [jsIsSpace, Bool.or_eq_false_iff, beq_eq_false_iff_ne, ne_eq]
  omega

theorem hyphen_not_space : jsIsSpace '-' = false := by decide

/-! ### Properties of `collapseRunsAux` -/

theorem collapseRunsAux_mem (p : Char → Bool) (rep : Char) :
    ∀ (b : Bool) (l : List Char) (c : Char), c ∈ collapseRunsAux p rep b l →
      c = rep ∨ (c ∈ l ∧ p c = false) := by
  intro b l
  induction l generalizing b with
  | nil => intro c hc; simp [collapseRunsAux] at hc
  | cons d rest ih =>
    intro c hc
    simp only [collapseRunsAux] at hc
    by_cases hd : p d = true
    · rw [if_pos hd] at hc
      by_cases hb : b = true
      · rw [if_pos hb] at hc
        rcases ih true c hc with h | h
        · exact Or.inl h
        · exact Or.inr ⟨List.mem_cons_of_mem d h.1, h.2⟩
      · rw [if_neg hb] at hc
        rcases List.mem_cons.mp hc with h | h
        · exact Or.inl h
        · rcases ih true c h with h2 | h2
          · exact Or.inl h2
          · exact Or.inr ⟨List.mem_cons_of_mem d h2.1, h2.2⟩
    · rw [if_neg hd] at hc
      rcases List.mem_cons.mp hc with h | h
      · subst h
        exact Or.inr ⟨List.mem_cons_self c rest, by simpa using hd⟩
      · rcases ih false c h with h2 | h2
        · exact Or.inl h2
        · exact Or.inr ⟨List.mem_cons_of_mem d h2.1, h2.2⟩

theorem collapseRunsAux_id (p : Char → Bool) (rep : Char) :
    ∀ (b : Bool) (l : List Char), (∀ c ∈ l, p c = false) →
      collapseRunsAux p rep b l = l := by
  intro b l
  induction l generalizing b with
  | nil => intro _; rfl
  | cons d rest ih =>
    intro h
    have hd : p d = false := h d (List.mem_cons_self d rest)
    simp only [collapseRunsAux, hd]
    rw [if_neg (by simp [hd])]
    rw [ih false (fun c hc => h c (List.mem_cons_of_mem d hc))]

/-- Absence of two adjacent characters satisfying `p`. -/
def NoAdjacent (p : Char → Bool) (l : List Char) : Prop :=
  List.Chain' (fun a b => ¬(p a = true ∧ p b = true)) l

theorem collapseRunsAux_noAdjacent (p : Char → Bool) (rep : Char) :
    ∀ (l : List Char) (b : Bool),
      NoAdjacent p (collapseRunsAux p rep b l) ∧
      (b = true → ∀ h ∈ (collapseRunsAux p rep b l).head?, p h = false) := by
  intro l
  induction l with
  | nil =>
    intro b
    constructor
    · simp [collapseRunsAux, NoAdjacent]
    · intro _ h hh; simp [collapseRunsAux] at hh
  | cons d rest ih =>
    intro b
    by_cases hd : p d = true
    · cases b with
      | true =>
        constructor
        · simpa [collapseRunsAux, hd] using (ih true).1
        · intro _
          simpa [collapseRunsAux, hd] using (ih true).2 rfl
      | false =>
        have hout : collapseRunsAux p rep false (d :: rest) =
            rep :: collapseRunsAux p rep true rest := by
          simp [collapseRunsAux, hd]
        constructor
        · rw [hout]
          unfold NoAdjacent
          rw [List.chain'_cons']
          refine ⟨?_, (ih true).1⟩
          intro h hh
          have := (ih true).2 rfl h hh
          intro hcontra
          rw [this] at hcontra
          exact absurd hcontra.2 (by simp)
        · intro hcontra; simp at hcontra
    · have hout : collapseRunsAux p rep b (d :: rest) =
          d :: collapseRunsAux p rep false rest := by
        simp [collapseRunsAux, hd]
      constructor
      · rw [hout]
        unfold NoAdjacent
        rw [List.chain'_cons']
        refine ⟨?_, (ih false).1⟩
        intro h _ hcontra
        exact absurd hcontra.1 (by simp [hd])
      · intro _ h hh
        rw [hout] at hh
        simp only [List.head?_cons, Option.mem_def, Option.some.injEq] at hh
        subst hh
        simpa using hd

theorem collapseRunsAux_id_of_noAdjacent (p : Char → Bool) (rep : Char) :
    ∀ (l : List Char), (∀ c ∈ l, p c = true → c = rep) → NoAdjacent p l →
      ∀ (b : Bool), (b = true → ∀ h ∈ l.head?, p h = false) →
        collapseRunsAux p rep b l = l := by
  intro l
  induction l with
  | nil => intro _ _ b _; rfl
  | cons d rest ih =>
    intro hrep hadj b hhead
    unfold NoAdjacent at hadj
    rw [List.chain'_cons'] at hadj
    by_cases hd : p d = true
    · have hbf : b = false := by
        by_contra hb
        have hb2 : b = true := by simpa using hb
        have := hhead hb2 d (by simp)
        rw [this] at hd
        exact absurd hd (by simp)
      subst hbf
      have hdrep : d = rep := hrep d (List.mem_cons_self d rest) hd
      have hout : collapseRunsAux p rep false (d :: rest) =
          rep :: collapseRunsAux p rep true rest := by
        simp [collapseRunsAux, hd]
      rw [hout, hdrep]
      congr 1
      apply ih
      · intro c hc; exact hrep c (List.mem_cons_of_mem d hc)
      · exact hadj.2
      · intro _ h hh
        have := hadj.1 h hh
        by_contra hcontra
        exact this ⟨hd, by simpa using hcontra⟩
    · have hout : collapseRunsAux p rep b (d :: rest) =
          d :: collapseRunsAux p rep false rest := by
        simp [collapseRunsAux, hd]
      rw [hout]
      congr 1
      apply ih
      · intro c hc; exact hrep c (List.mem_cons_of_mem d hc)
      · exact hadj.2
      · intro hb; simp at hb

/-! ### Idempotence of `getSlug` -/

theorem map_toLower_id (l : List Char) (h : ∀ c ∈ l, Char.toLower c = c) :
    l.map Char.toLower = l := by
  induction l with
  | nil => rfl
  | cons d rest ih =>
    simp only [List.map_cons]
    rw [h d (List.mem_cons_self d rest), ih (fun c hc => h c (List.mem_cons_of_mem d hc))]

/-- Every character of a slug is a lowered word character or a hyphen. -/
theorem getSlug_mem (s : String) (c : Char) (hc : c ∈ (getSlug s).data) :
    (jsIsWordChar c = true ∨ c = '-') ∧ Char.toLower c = c := by
  simp only [getSlug] at hc
  rcases collapseRunsAux_mem _ _ _ _ c hc with h | h
  · subst h
    exact ⟨Or.inr rfl, by decide⟩
  · rcases collapseRunsAux_mem _ _ _ _ c h.1 with h2 | h2
    · subst h2
      exact ⟨Or.inr rfl, by decide⟩
    · have hmem := h2.1
      have hspace : jsIsSpace c = false := h2.2
      rw [List.mem_filter] at hmem
      have hkeep := hmem.2
      have hlower : Char.toLower c = c := by
        rcases List.mem_map.mp hmem.1 with ⟨d, _, hd⟩
        rw [← hd]
        exact char_toLower_idem d
      refine ⟨?_, hlower⟩
      simp only [keepChar, Bool.or_eq_true, beq_iff_eq] at hkeep
      rcases hkeep with (hw | hs) | hh
      · exact Or.inl hw
      · rw [hspace] at hs; exact absurd hs (by simp)
      · exact Or.inr hh

/-- No two adjacent hyphens survive in a slug. -/
theorem getSlug_noAdjacent (s : String) :
    NoAdjacent (fun c => c == '-') (getSlug s).data := by
  simp only [getSlug]
  exact (collapseRunsAux_noAdjacent _ _ _ false).1

/-- C3: `getSlug` is idempotent: `getSlug (getSlug x) = getSlug x` for every
input string.  Being a plain Lean function of its argument, it is also pure
and total — the same input always yields the same output. -/
theorem getSlug_idempotent (s : String) : getSlug (getSlug s) = getSlug s := by
  have hmem := getSlug_mem s
  have hmap : (getSlug s).data.map Char.toLower = (getSlug s).data :=
    map_toLower_id _ (fun c hc => (hmem c hc).2)
  have hfilter : ((getSlug s).data.filter keepChar) = (getSlug s).data := by
    rw [List.filter_eq_self]
    intro c hc
    rcases (hmem c hc).1 with h | h
    · simp [keepChar, h]
    · subst h; simp [keepChar]
  have hspaces : collapseSpaces ((getSlug s).data) = (getSlug s).data := by
    apply collapseRunsAux_id
    intro c hc
    rcases (hmem c hc).1 with h | h
    · exact word_not_space c h
    · subst h; exact hyphen_not_space
  have hhyph : collapseHyphens ((getSlug s).data) = (getSlug s).data := by
    apply collapseRunsAux_id_of_noAdjacent
    · intro c _ hc; simpa using hc
    · exact getSlug_noAdjacent s
    · intro hb; simp at hb
  conv_lhs => rw [getSlug]
  rw [hmap, hfilter, hspaces, hhyph]

/-! ## Data model (`src/parser/traversal.ts`, `src/parser/models`)

The TypeScript `DocItem` hierarchy is a tagged union discriminated by `kind`;
the formatter reads variant fields after casting by kind.  We model it as one
wide record with defaulted variant fields (which is exactly how the
duck-typed TS objects behave), plus dedicated records for members. -/

inductive DocItemKind where
  | Function
  | Class
  | Interface
  | Enum
  | TypeAlias
  | Property
  | Method
  | Parameter
deriving DecidableEq, Repr

structure Location where
  filePath : String
  line : Nat
deriving DecidableEq, Repr

structure JSDocTagInfo where
  tag : String
  name : String
  description : String
deriving DecidableEq, Repr

structure JSDocInfo where
  description : String
  tags : List JSDocTagInfo
deriving DecidableEq, Repr

structure ParamD where
  name : String
  type : String
  isOptional : Bool := false
  defaultValue : Option String := none
  description : String := ""
  location : Location := ⟨"", 0⟩
deriving DecidableEq, Repr

structure PropD where
  name : String
  type : String
  isStatic : Bool := false
  isReadonly : Bool := false
  isOptional : Bool := false
  description : Option String := none
  location : Location := ⟨"", 0⟩
  jsDoc : Option JSDocInfo := none
deriving DecidableEq, Repr

structure MethodD where
  name : String
  parameters : List ParamD := []
  returnType : String
  isStatic : Bool := false
  isAsync : Bool := false
  typeParameters : List String := []
  description : Option String := none
  location : Location := ⟨"", 0⟩
  jsDoc : Option JSDocInfo := none
deriving DecidableEq, Repr

structure EnumMemberD where
  name : String
  value : Option String := none
  description : Option String := none
deriving DecidableEq, Repr

structure DocItem where
  name : String
  kind : DocItemKind
  description : Option String := none
  location : Location := ⟨"", 0⟩
  jsDoc : Option JSDocInfo := none
  parameters : List ParamD := []
  returnType : String := ""
  typeParameters : List String := []
  properties : List PropD := []
  methods : List MethodD := []
  constructors : List MethodD := []
  extendsClass : Option String := none
  implementsList : List String := []
  extendsList : List String := []
  members : List EnumMemberD := []
  typeText : String := ""
deriving DecidableEq, Repr

structure MarkdownOptions where
  tocDepth : Nat
  linkReferences : Bool
  includeTypes : Bool
  includeExamples : Bool
deriving DecidableEq, Repr

/-! ## Formatter helpers -/

/-- JavaScript truthiness of an optional string: `undefined` and `""` are
falsy. -/
def optTruthy : Option String → Option String
  | some s => if s = "" then none else some s
  | none => none

/-- Concatenation of the strings produced by a rendering loop
(`markdown += ...` over a list). -/
def strConcat : List String → String
  | [] => ""
  | s :: rest => s ++ strConcat rest

/-- Model of Node `path.basename`: the part after the last `/`. -/
def pathBasename (p : String) : String :=
  ⟨p.data.foldl (fun acc c => if c = '/' then [] else acc ++ [c]) []⟩

/-- Emit a description paragraph when the description is truthy. -/
def emitDescription (d : Option String) : String :=
  match optTruthy d with
  | some s => s ++ "\n\n"
  | none => ""

/-- The `### Source` section of an item block. -/
def formatSource (loc : Location) : String :=
  "### Source\n\n[" ++ pathBasename loc.filePath ++ ":" ++ toString loc.line ++
    "](" ++ loc.filePath ++ "#L" ++ toString loc.line ++ ")\n\n"

/-- `<T1, T2>` when the type-parameter list is non-empty. -/
def emitTypeParams (tps : List String) : String :=
  if tps.length > 0 then "<" ++ String.intercalate ", " tps ++ ">" else ""

/-! ## Sorting (`formatMarkdown` in `src/markdown/formatter.ts`, lines 33-52) -/

/-- `kindOrder.indexOf(kind)` for the fixed priority array
`[Class, Interface, Function, TypeAlias, Enum]` (`-1` for the other kinds). -/
def kindIndex : DocItemKind → Int
  | DocItemKind.Class => 0
  | DocItemKind.Interface => 1
  | DocItemKind.Function => 2
  | DocItemKind.TypeAlias => 3
  | DocItemKind.Enum => 4
  | _ => -1

/-- Lexicographic code-point comparison of character lists (the model of
`String.prototype.localeCompare`; any locale agrees with it on the ASCII
names exercised here, and the source relies only on it being a total
comparison). -/
def compareCP : List Char → List Char → Int
  | [], [] => 0
  | [], _ :: _ => -1
  | _ :: _, [] => 1
  | a :: as, b :: bs =>
    if a.toNat < b.toNat then -1
    else if b.toNat < a.toNat then 1
    else compareCP as bs

/-- Model of `a.localeCompare(b)`. -/
def localeCompare (a b : String) : Int :=
  compareCP a.data b.data

/-- The comparator passed to `Array.prototype.sort`. -/
def compareItems (a b : DocItem) : Int :=
  if kindIndex a.kind ≠ kindIndex b.kind then kindIndex a.kind - kindIndex b.kind
  else localeCompare a.name b.name

/-- Stable insertion of `x` into an already-sorted list: `x` goes before the
first element not strictly smaller than it (this is the unique stable-sort
behaviour guaranteed for `Array.prototype.sort` with a consistent
comparator). -/
def insertItem (x : DocItem) : List DocItem → List DocItem
  | [] => [x]
  | y :: rest => if compareItems y x < 0 then y :: insertItem x rest else x :: y :: rest

/-- The `[...items].sort(comparator)` step of `formatMarkdown`, modelled as a
stable insertion sort. -/
def sortItems (items : List DocItem) : List DocItem :=
  items.foldr insertItem []

/-! ## Table of contents (`formatTableOfContents`) -/

/-- `getKindHeading` from the source. -/
def getKindHeading : DocItemKind → String
  | DocItemKind.Class => "Classes"
  | DocItemKind.Interface => "Interfaces"
  | DocItemKind.Function => "Functions"
  | DocItemKind.Enum => "Enums"
  | DocItemKind.TypeAlias => "Type Aliases"
  | _ => "Other"

/-- One step of the insertion-ordered `Map<DocItemKind, DocItem[]>` grouping:
append the item to its kind's bucket, creating the bucket at the end on first
occurrence of the kind. -/
def insertGrouped (groups : List (DocItemKind × List DocItem)) (item : DocItem) :
    List (DocItemKind × List DocItem) :=
  match groups with
  | [] => [(item.kind, [item])]
  | (k, its) :: rest =>
    if k = item.kind then (k, its ++ [item]) :: rest
    else (k, its) :: insertGrouped rest item

/-- The kind-grouping pass of `formatTableOfContents` (a JavaScript `Map`
keeps keys in insertion order). -/
def groupByKind (items : List DocItem) : List (DocItemKind × List DocItem) :=
  items.foldl insertGrouped []

/-- A member sub-list (`Properties` or `Methods`) of a TOC entry, emitted only
when non-empty; each member links to `getSlug (parentName ++ "-" ++ name)`. -/
def tocMemberSection (parentName sectionName : String) (memberNames : List String) : String :=
  if memberNames.length > 0 then
    "  - " ++ sectionName ++ "\n" ++
      strConcat (memberNames.map (fun n =>
        "    - [" ++ n ++ "](#" ++ getSlug (parentName ++ "-" ++ n) ++ ")\n"))
  else ""

/-- One top-level TOC entry: the item link, plus member sub-lists for classes
and interfaces when `depth > 1`. -/
def tocEntry (depth : Nat) (kind : DocItemKind) (item : DocItem) : String :=
  "- [" ++ item.name ++ "](#" ++ getSlug item.name ++ ")\n" ++
    (if depth > 1 then
      (if kind = DocItemKind.Class then
        tocMemberSection item.name "Properties" (item.properties.map PropD.name) ++
          tocMemberSection item.name "Methods" (item.methods.map MethodD.name)
      else if kind = DocItemKind.Interface then
        tocMemberSection item.name "Properties" (item.properties.map PropD.name) ++
          tocMemberSection item.name "Methods" (item.methods.map MethodD.name)
      else "")
    else "")

/-- One kind group of the TOC: heading, entries, blank line. -/
def tocGroup (depth : Nat) (g : DocItemKind × List DocItem) : String :=
  "## " ++ getKindHeading g.1 ++ "\n\n" ++ strConcat (g.2.map (tocEntry depth g.1)) ++ "\n"

/-- `formatTableOfContents` from the source. -/
def formatTableOfContents (items : List DocItem) (depth : Nat) : String :=
  "# Table of Contents\n\n" ++ strConcat ((groupByKind items).map (tocGroup depth))

/-! ## Per-kind block formatting -/

/-- One parameter line of a synthesized signature; a comma on every line but
the last. -/
def signatureParamLine (withComma : Bool) (p : ParamD) : String :=
  "  " ++ p.name ++ (if p.isOptional then "?" else "") ++ ": " ++ p.type ++
    (match optTruthy p.defaultValue with
      | some v => " = " ++ v
      | none => "") ++
    (if withComma then "," else "") ++ "\n"

/-- The parameter lines of a synthesized signature. -/
def signatureParamsAux : List ParamD → String
  | [] => ""
  | [p] => signatureParamLine false p
  | p :: q :: rest => signatureParamLine true p ++ signatureParamsAux (q :: rest)

/-- The parenthesized parameter block: newline-separated indented lines when
at least one parameter exists, empty otherwise. -/
def signatureParams (parameters : List ParamD) : String :=
  if parameters.length > 0 then "\n" ++ signatureParamsAux parameters else ""

/-- `formatFunctionSignature` from the source. -/
def formatFunctionSignature (func : DocItem) : String :=
  "function " ++ func.name ++ emitTypeParams func.typeParameters ++ "(" ++
    signatureParams func.parameters ++ "): " ++ func.returnType

/-- `formatMethodSignature` from the source. -/
def formatMethodSignature (method : MethodD) : String :=
  (if method.isStatic then "static " else "") ++
    (if method.isAsync then "async " else "") ++
    method.name ++ emitTypeParams method.typeParameters ++ "(" ++
    signatureParams method.parameters ++ "): " ++ method.returnType

/-- `formatParameters` from the source (the bulleted parameter list). -/
def formatParameters (parameters : List ParamD) (options : MarkdownOptions) : String :=
  strConcat (parameters.map (fun param =>
    "- `" ++ param.name ++ (if param.isOptional then "?" else "") ++
      (if options.includeTypes then ": " ++ param.type else "") ++ "`" ++
      (match optTruthy param.defaultValue with
        | some v => " (default: `" ++ v ++ "`)"
        | none => "") ++
      (if param.description ≠ "" then " - " ++ param.description else "") ++
      "\n")) ++ "\n"

/-- `formatProperty` from the source: member anchor
`getSlug (parentName ++ "-" ++ prop.name)`, heading, description,
signature code block. -/
def formatProperty (prop : PropD) (parentName : String) (options : MarkdownOptions) : String :=
  "<a id=\"" ++ getSlug (parentName ++ "-" ++ prop.name) ++ "\"></a>\n\n" ++
    "#### " ++ prop.name ++ "\n\n" ++
    emitDescription prop.description ++
    "```typescript\n" ++
    (if prop.isStatic then "static " else "") ++
    (if prop.isReadonly then "readonly " else "") ++
    prop.name ++
    (if prop.isOptional then "?" else "") ++
    (if options.includeTypes then ": " ++ prop.type else "") ++
    ";\n" ++ "```\n\n"

/-- `formatMethod` from the source: member anchor
`getSlug (parentName ++ "-" ++ method.name)`, heading, description,
signature, parameters, returns. -/
def formatMethod (method : MethodD) (parentName : String) (options : MarkdownOptions) : String :=
  "<a id=\"" ++ getSlug (parentName ++ "-" ++ method.name) ++ "\"></a>\n\n" ++
    "#### " ++ method.name ++ "\n\n" ++
    emitDescription method.description ++
    "```typescript\n" ++ formatMethodSignature method ++ "\n```\n\n" ++
    (if method.parameters.length > 0 then
      "##### Parameters\n\n" ++ formatParameters method.parameters options
    else "") ++
    "##### Returns\n\n`" ++ method.returnType ++ "`\n\n"

/-- `formatFunction` from the source. -/
def formatFunction (func : DocItem) (options : MarkdownOptions) : String :=
  "<a id=\"" ++ getSlug func.name ++ "\"></a>\n\n" ++
    "## " ++ func.name ++ "\n\n" ++
    emitDescription func.description ++
    "```typescript\n" ++ formatFunctionSignature func ++ "\n```\n\n" ++
    (if func.parameters.length > 0 then
      "### Parameters\n\n" ++ formatParameters func.parameters options
    else "") ++
    "### Returns\n\n`" ++ func.returnType ++ "`\n\n" ++
    formatSource func.location

/-- `formatClass` from the source. -/
def formatClass (cls : DocItem) (options : MarkdownOptions) : String :=
  "<a id=\"" ++ getSlug cls.name ++ "\"></a>\n\n" ++
    "## " ++ cls.name ++ "\n\n" ++
    emitDescription cls.description ++
    "```typescript\n" ++ "class " ++ cls.name ++
    emitTypeParams cls.typeParameters ++
    (match optTruthy cls.extendsClass with
      | some e => " extends " ++ e
      | none => "") ++
    (if cls.implementsList.length > 0 then
      " implements " ++ String.intercalate ", " cls.implementsList
    else "") ++
    " \x7b\n" ++
    (if cls.properties.length > 0 ∨ cls.methods.length > 0 ∨ cls.constructors.length > 0 then
      "  // Properties, methods, and constructors\n"
    else "") ++
    "\x7d\n" ++ "```\n\n" ++
    (if cls.constructors.length > 0 then
      "### Constructors\n\n" ++ strConcat (cls.constructors.map (fun c => formatMethod c cls.name options))
    else "") ++
    (if cls.properties.length > 0 then
      "### Properties\n\n" ++ strConcat (cls.properties.map (fun p => formatProperty p cls.name options))
    else "") ++
    (if cls.methods.length > 0 then
      "### Methods\n\n" ++ strConcat (cls.methods.map (fun m => formatMethod m cls.name options))
    else "") ++
    formatSource cls.location

/-- `formatInterface` from the source. -/
def formatInterface (iface : DocItem) (options : MarkdownOptions) : String :=
  "<a id=\"" ++ getSlug iface.name ++ "\"></a>\n\n" ++
    "## " ++ iface.name ++ "\n\n" ++
    emitDescription iface.description ++
    "```typescript\n" ++ "interface " ++ iface.name ++
    emitTypeParams iface.typeParameters ++
    (if iface.extendsList.length > 0 then
      " extends " ++ String.intercalate ", " iface.extendsList
    else "") ++
    " \x7b\n" ++
    (if iface.properties.length > 0 ∨ iface.methods.length > 0 then
      "  // Properties and methods\n"
    else "") ++
    "\x7d\n" ++ "```\n\n" ++
    (if iface.properties.length > 0 then
      "### Properties\n\n" ++ strConcat (iface.properties.map (fun p => formatProperty p iface.name options))
    else "") ++
    (if iface.methods.length > 0 then
      "### Methods\n\n" ++ strConcat (iface.methods.map (fun m => formatMethod m iface.name options))
    else "") ++
    formatSource iface.location

/-- `formatEnum` from the source. -/
def formatEnum (enumDoc : DocItem) (_options : MarkdownOptions) : String :=
  "<a id=\"" ++ getSlug enumDoc.name ++ "\"></a>\n\n" ++
    "## " ++ enumDoc.name ++ "\n\n" ++
    emitDescription enumDoc.description ++
    "```typescript\n" ++ "enum " ++ enumDoc.name ++ " \x7b\n" ++
    strConcat (enumDoc.members.map (fun member =>
      "  " ++ member.name ++
        (match member.value with
          | some v => " = " ++ v
          | none => "") ++ ",\n")) ++
    "\x7d\n" ++ "```\n\n" ++
    (if enumDoc.members.length > 0 then
      "### Members\n\n" ++ strConcat (enumDoc.members.map (fun member =>
        "#### " ++ member.name ++ "\n\n" ++
          (match member.value with
            | some v => "Value: `" ++ v ++ "`\n\n"
            | none => "") ++
          emitDescription member.description))
    else "") ++
    formatSource enumDoc.location

/-- `formatTypeAlias` from the source. -/
def formatTypeAlias (typeAlias : DocItem) (_options : MarkdownOptions) : String :=
  "<a id=\"" ++ getSlug typeAlias.name ++ "\"></a>\n\n" ++
    "## " ++ typeAlias.name ++ "\n\n" ++
    emitDescription typeAlias.description ++
    "```typescript\n" ++ "type " ++ typeAlias.name ++
    emitTypeParams typeAlias.typeParameters ++
    " = " ++ typeAlias.typeText ++ ";\n" ++ "```\n\n" ++
    formatSource typeAlias.location

/-- The body `switch` of `formatMarkdown`: the five renderable kinds produce a
block, every other kind produces nothing. -/
def formatItemBlock (item : DocItem) (options : MarkdownOptions) : String :=
  match item.kind with
  | DocItemKind.Function => formatFunction item options
  | DocItemKind.Class => formatClass item options
  | DocItemKind.Interface => formatInterface item options
  | DocItemKind.Enum => formatEnum item options
  | DocItemKind.TypeAlias => formatTypeAlias item options
  | _ => ""

/-- `formatMarkdown` from the source: sort, table of contents, then one body
block (plus a blank-line separator) per sorted item. -/
def formatMarkdown (items : List DocItem) (options : MarkdownOptions) : String :=
  formatTableOfContents (sortItems items) options.tocDepth ++ "\n\n" ++
    strConcat ((sortItems items).map (fun item => formatItemBlock item options ++ "\n\n"))

/-! ## Substring predicate used for the anchor/link theorems -/

/-- `needle` occurs contiguously inside `hay`. -/
def SubStr (needle hay : String) : Prop :=
  needle.data <:+: hay.data

theorem substr_refl (a : String) : SubStr a a :=
  List.infix_rfl

theorem SubStr.appendR {n a : String} (b : String) (h : SubStr n a) : SubStr n (a ++ b) := by
  unfold SubStr at *
  rw [String.data_append]
  rcases h with ⟨s, t, hst⟩
  exact ⟨s, t ++ b.data, by rw [← hst]; simp⟩

theorem SubStr.appendL {n b : String} (a : String) (h : SubStr n b) : SubStr n (a ++ b) := by
  unfold SubStr at *
  rw [String.data_append]
  rcases h with ⟨s, t, hst⟩
  exact ⟨a.data ++ s, t, by rw [← hst]; simp⟩

theorem SubStr.trans {a b c : String} (h1 : SubStr a b) (h2 : SubStr b c) : SubStr a c :=
  List.IsInfix.trans h1 h2

theorem substr_strConcat {α : Type} (f : α → String) (l : List α) (x : α) (hx : x ∈ l) :
    SubStr (f x) (strConcat (l.map f)) := by
  induction l with
  | nil => simp at hx
  | cons y rest ih =>
    rcases List.mem_cons.mp hx with h | h
    · subst h
      exact SubStr.appendR _ (substr_refl (f x))
    · exact SubStr.appendL _ (ih h)

/-! ## Permutation and membership facts about the sorting pass -/

theorem insertItem_perm (x : DocItem) (l : List DocItem) :
    (insertItem x l).Perm (x :: l) := by
  induction l with
  | nil => simp [insertItem]
  | cons y rest ih =>
    by_cases h : compareItems y x < 0
    · simp only [insertItem, if_pos h]
      exact (ih.cons y).trans (List.Perm.swap x y rest)
    · simp only [insertItem, if_neg h]
      exact List.Perm.refl _

theorem sortItems_perm (items : List DocItem) :
    (sortItems items).Perm items := by
  induction items with
  | nil => simp [sortItems]
  | cons x rest ih =>
    have : sortItems (x :: rest) = insertItem x (sortItems rest) := rfl
    rw [this]
    exact (insertItem_perm x (sortItems rest)).trans (ih.cons x)

theorem mem_sortItems {items : List DocItem} {item : DocItem} (h : item ∈ items) :
    item ∈ sortItems items :=
  ((sortItems_perm items).mem_iff).mpr h

/-! ## Facts about the kind grouping of the table of contents -/

theorem insertGrouped_kinds_ok (gs : List (DocItemKind × List DocItem)) (x : DocItem)
    (h : ∀ g ∈ gs, ∀ y ∈ g.2, y.kind = g.1) :
    ∀ g ∈ insertGrouped gs x, ∀ y ∈ g.2, y.kind = g.1 := by
  induction gs with
  | nil =>
    intro g hg y hy
    simp only [insertGrouped, List.mem_singleton] at hg
    subst hg
    simp only [List.mem_singleton] at hy
    subst hy
    rfl
  | cons p rest ih =>
    intro g hg y hy
    rcases p with ⟨k, its⟩
    by_cases hk : k = x.kind
    · simp only [insertGrouped, if_pos hk] at hg
      rcases List.mem_cons.mp hg with h2 | h2
      · subst h2
        rcases List.mem_append.mp hy with h3 | h3
        · exact h (k, its) (List.mem_cons_self _ _) y h3
        · simp only [List.mem_singleton] at h3
          subst h3
          exact hk.symm
      · exact h g (List.mem_cons_of_mem _ h2) y hy
    · simp only [insertGrouped, if_neg hk] at hg
      rcases List.mem_cons.mp hg with h2 | h2
      · subst h2
        exact h (k, its) (List.mem_cons_self _ _) y hy
      · exact ih (fun g2 hg2 => h g2 (List.mem_cons_of_mem _ hg2)) g h2 y hy

theorem insertGrouped_mem_old (gs : List (DocItemKind × List DocItem)) (x y : DocItem)
    (h : ∃ g ∈ gs, y ∈ g.2) : ∃ g ∈ insertGrouped gs x, y ∈ g.2 := by
  induction gs with
  | nil => simp at h
  | cons p rest ih =>
    rcases p with ⟨k, its⟩
    rcases h with ⟨g, hg, hy⟩
    by_cases hk : k = x.kind
    · rcases List.mem_cons.mp hg with h2 | h2
      · subst h2
        exact ⟨(k, its ++ [x]), by simp [insertGrouped, hk], List.mem_append.mpr (Or.inl hy)⟩
      · exact ⟨g, by simp only [insertGrouped, if_pos hk]; exact List.mem_cons_of_mem _ h2, hy⟩
    · rcases List.mem_cons.mp hg with h2 | h2
      · subst h2
        exact ⟨(k, its), by simp [insertGrouped, hk], hy⟩
      · rcases ih ⟨g, h2, hy⟩ with ⟨g2, hg2, hy2⟩
        exact ⟨g2, by simp only [insertGrouped, if_neg hk]; exact List.mem_cons_of_mem _ hg2, hy2⟩

theorem insertGrouped_mem_new (gs : List (DocItemKind × List DocItem)) (x : DocItem) :
    ∃ g ∈ insertGrouped gs x, x ∈ g.2 := by
  induction gs with
  | nil => exact ⟨(x.kind, [x]), by simp [insertGrouped], by simp⟩
  | cons p rest ih =>
    rcases p with ⟨k, its⟩
    by_cases hk : k = x.kind
    · exact ⟨(k, its ++ [x]), by simp [insertGrouped, hk], by simp⟩
    · rcases ih with ⟨g, hg, hx⟩
      exact ⟨g, by simp only [insertGrouped, if_neg hk]; exact List.mem_cons_of_mem _ hg, hx⟩

theorem foldl_insertGrouped_ok (items : List DocItem) :
    ∀ (gs : List (DocItemKind × List DocItem)),
      (∀ g ∈ gs, ∀ y ∈ g.2, y.kind = g.1) →
      ∀ g ∈ items.foldl insertGrouped gs, ∀ y ∈ g.2, y.kind = g.1 := by
  induction items with
  | nil => intro gs h; exact h
  | cons x rest ih =>
    intro gs h
    exact ih (insertGrouped gs x) (insertGrouped_kinds_ok gs x h)

theorem foldl_insertGrouped_mem (items : List DocItem) :
    ∀ (gs : List (DocItemKind × List DocItem)) (y : DocItem),
      ((∃ g ∈ gs, y ∈ g.2) ∨ y ∈ items) →
      ∃ g ∈ items.foldl insertGrouped gs, y ∈ g.2 := by
  induction items with
  | nil =>
    intro gs y h
    rcases h with h | h
    · exact h
    · simp at h
  | cons x rest ih =>
    intro gs y h
    rcases h with h | h
    · exact ih (insertGrouped gs x) y (Or.inl (insertGrouped_mem_old gs x y h))
    · rcases List.mem_cons.mp h with h2 | h2
      · subst h2
        exact ih (insertGrouped gs y) y (Or.inl (insertGrouped_mem_new gs y))
      · exact ih (insertGrouped gs x) y (Or.inr h2)

theorem groupByKind_kinds_ok (items : List DocItem) :
    ∀ g ∈ groupByKind items, ∀ y ∈ g.2, y.kind = g.1 :=
  foldl_insertGrouped_ok items [] (by simp)

theorem groupByKind_mem (items : List DocItem) (item : DocItem) (h : item ∈ items) :
    ∃ g ∈ groupByKind items, item ∈ g.2 ∧ g.1 = item.kind := by
  rcases foldl_insertGrouped_mem items [] item (Or.inr h) with ⟨g, hg, hx⟩
  exact ⟨g, hg, hx, (groupByKind_kinds_ok items g hg item hx).symm⟩

/-! ## C1: TOC links and body anchors use identical slugs -/

/-- The five kinds rendered by the body `switch`. -/
def isRenderableKind : DocItemKind → Bool
  | DocItemKind.Function => true
  | DocItemKind.Class => true
  | DocItemKind.Interface => true
  | DocItemKind.Enum => true
  | DocItemKind.TypeAlias => true
  | _ => false

theorem bodyHead_substr (item : DocItem) (options : MarkdownOptions)
    (hkind : isRenderableKind item.kind = true) :
    SubStr ("<a id=\"" ++ getSlug item.name ++ "\"></a>\n\n" ++ "## " ++ item.name ++ "\n\n")
      (formatItemBlock item options) := by
  cases hk : item.kind
  case Function =>
    simp only [formatItemBlock, hk]
    unfold formatFunction
    repeat
      first
      | with_reducible exact substr_refl _
      | apply SubStr.appendR
  case Class =>
    simp only [formatItemBlock, hk]
    unfold formatClass
    repeat
      first
      | with_reducible exact substr_refl _
      | apply SubStr.appendR
  case Interface =>
    simp only [formatItemBlock, hk]
    unfold formatInterface
    repeat
      first
      | with_reducible exact substr_refl _
      | apply SubStr.appendR
  case Enum =>
    simp only [formatItemBlock, hk]
    unfold formatEnum
    repeat
      first
      | with_reducible exact substr_refl _
      | apply SubStr.appendR
  case TypeAlias =>
    simp only [formatItemBlock, hk]
    unfold formatTypeAlias
    repeat
      first
      | with_reducible exact substr_refl _
      | apply SubStr.appendR
  case Property => rw [hk] at hkind; simp [isRenderableKind] at hkind
  case Method => rw [hk] at hkind; simp [isRenderableKind] at hkind
  case Parameter => rw [hk] at hkind; simp [isRenderableKind] at hkind

theorem tocEntry_substr_of_mem (items : List DocItem) (depth : Nat) (item : DocItem)
    (h : item ∈ items) :
    SubStr (tocEntry depth item.kind item) (formatTableOfContents items depth) := by
  rcases groupByKind_mem items item h with ⟨g, hg, hx, hk⟩
  have h1 : SubStr (tocEntry depth item.kind item)
      (strConcat (g.2.map (tocEntry depth g.1))) := by
    rw [hk]
    exact substr_strConcat (tocEntry depth item.kind) g.2 item hx
  have h2 : SubStr (tocEntry depth item.kind item) (tocGroup depth g) := by
    unfold tocGroup
    exact SubStr.appendR _ (SubStr.appendL _ h1)
  have h3 : SubStr (tocGroup depth g) (strConcat ((groupByKind items).map (tocGroup depth))) :=
    substr_strConcat (tocGroup depth) (groupByKind items) g hg
  unfold formatTableOfContents
  exact SubStr.appendL _ (h2.trans h3)

theorem toc_substr_formatMarkdown (items : List DocItem) (options : MarkdownOptions)
    (n : String) (h : SubStr n (formatTableOfContents (sortItems items) options.tocDepth)) :
    SubStr n (formatMarkdown items options) := by
  unfold formatMarkdown
  exact SubStr.appendR _ (SubStr.appendR _ h)

theorem block_substr_formatMarkdown (items : List DocItem) (options : MarkdownOptions)
    (item : DocItem) (hmem : item ∈ items) (n : String)
    (h : SubStr n (formatItemBlock item options)) :
    SubStr n (formatMarkdown items options) := by
  unfold formatMarkdown
  apply SubStr.appendL
  have h1 : SubStr (formatItemBlock item options ++ "\n\n")
      (strConcat ((sortItems items).map (fun it => formatItemBlock it options ++ "\n\n"))) :=
    substr_strConcat (fun it => formatItemBlock it options ++ "\n\n") (sortItems items)
      item (mem_sortItems hmem)
  exact (SubStr.appendR _ h).trans h1

theorem memberLine_substr_tocMemberSection (parent sectionName : String)
    (names : List String) (m : String) (hm : m ∈ names) :
    SubStr ("    - [" ++ m ++ "](#" ++ getSlug (parent ++ "-" ++ m) ++ ")\n")
      (tocMemberSection parent sectionName names) := by
  unfold tocMemberSection
  rw [if_pos (by exact List.length_pos.mpr (List.ne_nil_of_mem hm))]
  apply SubStr.appendL
  exact substr_strConcat
    (fun n => "    - [" ++ n ++ "](#" ++ getSlug (parent ++ "-" ++ n) ++ ")\n") names m hm

theorem tocEntry_member_substr (depth : Nat) (k : DocItemKind) (item : DocItem)
    (hdepth : depth > 1) (hk : k = DocItemKind.Class ∨ k = DocItemKind.Interface)
    (n : String)
    (h : SubStr n (tocMemberSection item.name "Properties" (item.properties.map PropD.name)) ∨
      SubStr n (tocMemberSection item.name "Methods" (item.methods.map MethodD.name))) :
    SubStr n (tocEntry depth k item) := by
  unfold tocEntry
  apply SubStr.appendL
  rw [if_pos hdepth]
  rcases hk with hk | hk
  · subst hk
    rw [if_pos rfl]
    rcases h with h | h
    · exact SubStr.appendR _ h
    · exact SubStr.appendL _ h
  · subst hk
    rw [if_neg (by decide), if_pos rfl]
    rcases h with h | h
    · exact SubStr.appendR _ h
    · exact SubStr.appendL _ h

theorem formatClass_prop_substr (cls : DocItem) (options : MarkdownOptions)
    (p : PropD) (hp : p ∈ cls.properties) (n : String)
    (h : SubStr n (formatProperty p cls.name options)) :
    SubStr n (formatClass cls options) := by
  unfold formatClass
  apply SubStr.appendR
  apply SubStr.appendR
  apply SubStr.appendL
  rw [if_pos (List.length_pos.mpr (List.ne_nil_of_mem hp))]
  apply SubStr.appendL
  exact h.trans (substr_strConcat (fun q => formatProperty q cls.name options) cls.properties p hp)

theorem formatClass_method_substr (cls : DocItem) (options : MarkdownOptions)
    (m : MethodD) (hm : m ∈ cls.methods) (n : String)
    (h : SubStr n (formatMethod m cls.name options)) :
    SubStr n (formatClass cls options) := by
  unfold formatClass
  apply SubStr.appendR
  apply SubStr.appendL
  rw [if_pos (List.length_pos.mpr (List.ne_nil_of_mem hm))]
  apply SubStr.appendL
  exact h.trans (substr_strConcat (fun q => formatMethod q cls.name options) cls.methods m hm)

theorem formatInterface_prop_substr (iface : DocItem) (options : MarkdownOptions)
    (p : PropD) (hp : p ∈ iface.properties) (n : String)
    (h : SubStr n (formatProperty p iface.name options)) :
    SubStr n (formatInterface iface options) := by
  unfold formatInterface
  apply SubStr.appendR
  apply SubStr.appendR
  apply SubStr.appendL
  rw [if_pos (List.length_pos.mpr (List.ne_nil_of_mem hp))]
  apply SubStr.appendL
  exact h.trans (substr_strConcat (fun q => formatProperty q iface.name options) iface.properties p hp)

theorem formatInterface_method_substr (iface : DocItem) (options : MarkdownOptions)
    (m : MethodD) (hm : m ∈ iface.methods) (n : String)
    (h : SubStr n (formatMethod m iface.name options)) :
    SubStr n (formatInterface iface options) := by
  unfold formatInterface
  apply SubStr.appendR
  apply SubStr.appendL
  rw [if_pos (List.length_pos.mpr (List.ne_nil_of_mem hm))]
  apply SubStr.appendL
  exact h.trans (substr_strConcat (fun q => formatMethod q iface.name options) iface.methods m hm)

theorem anchor_substr_formatProperty (p : PropD) (parent : String) (options : MarkdownOptions) :
    SubStr ("<a id=\"" ++ getSlug (parent ++ "-" ++ p.name) ++ "\"></a>\n\n")
      (formatProperty p parent options) := by
  unfold formatProperty
  repeat
    first
    | with_reducible exact substr_refl _
    | apply SubStr.appendR

theorem anchor_substr_formatMethod (m : MethodD) (parent : String) (options : MarkdownOptions) :
    SubStr ("<a id=\"" ++ getSlug (parent ++ "-" ++ m.name) ++ "\"></a>\n\n")
      (formatMethod m parent options) := by
  unfold formatMethod
  repeat
    first
    | with_reducible exact substr_refl _
    | apply SubStr.appendR

theorem tocLine_substr_tocEntry (depth : Nat) (k : DocItemKind) (item : DocItem) :
    SubStr ("- [" ++ item.name ++ "](#" ++ getSlug item.name ++ ")\n")
      (tocEntry depth k item) := by
  unfold tocEntry
  repeat
    first
    | with_reducible exact substr_refl _
    | apply SubStr.appendR

/-- C1: every link emitted in the table of contents by `formatMarkdown` uses
exactly the same slug string as the anchor emitted at that item's own heading
in the body (both are `getSlug item.name`), and, when `tocDepth > 1`, the TOC
member entry of each class/interface property or method uses the slug
`getSlug (parentName ++ "-" ++ memberName)`, character-identical to the
anchor emitted at that member's block. -/
theorem toc_and_anchor_slugs_agree (items : List DocItem) (options : MarkdownOptions)
    (item : DocItem) (hmem : item ∈ items) (hkind : isRenderableKind item.kind = true) :
    (SubStr ("- [" ++ item.name ++ "](#" ++ getSlug item.name ++ ")\n")
        (formatMarkdown items options) ∧
      SubStr ("<a id=\"" ++ getSlug item.name ++ "\"></a>\n\n" ++ "## " ++ item.name ++ "\n\n")
        (formatMarkdown items options)) ∧
    (options.tocDepth > 1 →
      (item.kind = DocItemKind.Class ∨ item.kind = DocItemKind.Interface) →
      (∀ p ∈ item.properties,
        SubStr ("    - [" ++ p.name ++ "](#" ++ getSlug (item.name ++ "-" ++ p.name) ++ ")\n")
            (formatMarkdown items options) ∧
          SubStr ("<a id=\"" ++ getSlug (item.name ++ "-" ++ p.name) ++ "\"></a>\n\n")
            (formatMarkdown items options)) ∧
      (∀ m ∈ item.methods,
        SubStr ("    - [" ++ m.name ++ "](#" ++ getSlug (item.name ++ "-" ++ m.name) ++ ")\n")
            (formatMarkdown items options) ∧
          SubStr ("<a id=\"" ++ getSlug (item.name ++ "-" ++ m.name) ++ "\"></a>\n\n")
            (formatMarkdown items options))) := by
  have hsorted : item ∈ sortItems items := mem_sortItems hmem
  have htocEntry : SubStr (tocEntry options.tocDepth item.kind item)
      (formatTableOfContents (sortItems items) options.tocDepth) :=
    tocEntry_substr_of_mem (sortItems items) options.tocDepth item hsorted
  refine ⟨⟨?_, ?_⟩, ?_⟩
  · exact toc_substr_formatMarkdown items options _
      ((tocLine_substr_tocEntry options.tocDepth item.kind item).trans htocEntry)
  · exact block_substr_formatMarkdown items options item hmem _
      (bodyHead_substr item options hkind)
  · intro hdepth hci
    constructor
    · intro p hp
      constructor
      · have hline := memberLine_substr_tocMemberSection item.name "Properties"
          (item.properties.map PropD.name) p.name (List.mem_map_of_mem PropD.name hp)
        exact toc_substr_formatMarkdown items options _
          ((tocEntry_member_substr options.tocDepth item.kind item hdepth hci _
            (Or.inl hline)).trans htocEntry)
      · have hanchor := anchor_substr_formatProperty p item.name options
        rcases hci with hk | hk
        · have hblock : formatItemBlock item options = formatClass item options := by
            simp [formatItemBlock, hk]
          exact block_substr_formatMarkdown items options item hmem _
            (hblock ▸ formatClass_prop_substr item options p hp _ hanchor)
        · have hblock : formatItemBlock item options = formatInterface item options := by
            simp [formatItemBlock, hk]
          exact block_substr_formatMarkdown items options item hmem _
            (hblock ▸ formatInterface_prop_substr item options p hp _ hanchor)
    · intro m hm
      constructor
      · have hline := memberLine_substr_tocMemberSection item.name "Methods"
          (item.methods.map MethodD.name) m.name (List.mem_map_of_mem MethodD.name hm)
        exact toc_substr_formatMarkdown items options _
          ((tocEntry_member_substr options.tocDepth item.kind item hdepth hci _
            (Or.inr hline)).trans htocEntry)
      · have hanchor := anchor_substr_formatMethod m item.name options
        rcases hci with hk | hk
        · have hblock : formatItemBlock item options = formatClass item options := by
            simp [formatItemBlock, hk]
          exact block_substr_formatMarkdown items options item hmem _
            (hblock ▸ formatClass_method_substr item options m hm _ hanchor)
        · have hblock : formatItemBlock item options = formatInterface item options := by
            simp [formatItemBlock, hk]
          exact block_substr_formatMarkdown items options item hmem _
            (hblock ▸ formatInterface_method_substr item options m hm _ hanchor)

/-- Concrete class item used by witnesses. -/
def c1Item : DocItem :=
  { name := "Box", kind := DocItemKind.Class,
    properties := [{ name := "size", type := "number" }],
    methods := [{ name := "open", returnType := "void" }] }

/-- Concrete options used by witnesses. -/
def c1Opts : MarkdownOptions :=
  { tocDepth := 2, linkReferences := true, includeTypes := true, includeExamples := true }

/-- Witness for C1 at a concrete class with one property and one method. -/
theorem toc_and_anchor_slugs_agree_witness :
    (SubStr ("- [" ++ c1Item.name ++ "](#" ++ getSlug c1Item.name ++ ")\n")
        (formatMarkdown [c1Item] c1Opts) ∧
      SubStr ("<a id=\"" ++ getSlug c1Item.name ++ "\"></a>\n\n" ++ "## " ++ c1Item.name ++ "\n\n")
        (formatMarkdown [c1Item] c1Opts)) ∧
    (c1Opts.tocDepth > 1 →
      (c1Item.kind = DocItemKind.Class ∨ c1Item.kind = DocItemKind.Interface) →
      (∀ p ∈ c1Item.properties,
        SubStr ("    - [" ++ p.name ++ "](#" ++ getSlug (c1Item.name ++ "-" ++ p.name) ++ ")\n")
            (formatMarkdown [c1Item] c1Opts) ∧
          SubStr ("<a id=\"" ++ getSlug (c1Item.name ++ "-" ++ p.name) ++ "\"></a>\n\n")
            (formatMarkdown [c1Item] c1Opts)) ∧
      (∀ m ∈ c1Item.methods,
        SubStr ("    - [" ++ m.name ++ "](#" ++ getSlug (c1Item.name ++ "-" ++ m.name) ++ ")\n")
            (formatMarkdown [c1Item] c1Opts) ∧
          SubStr ("<a id=\"" ++ getSlug (c1Item.name ++ "-" ++ m.name) ++ "\"></a>\n\n")
            (formatMarkdown [c1Item] c1Opts))) :=
  toc_and_anchor_slugs_agree [c1Item] c1Opts c1Item (List.mem_singleton.mpr rfl) rfl

/-! ## C2: the sorting pass -/

theorem char_eq_of_toNat_eq (a b : Char) (h : a.toNat = b.toNat) : a = b :=
  Char.eq_of_val_eq (UInt32.toNat.inj h)

theorem compareCP_swap (a : List Char) : ∀ (b : List Char), compareCP b a = -(compareCP a b) := by
  induction a with
  | nil =>
    intro b
    cases b <;> simp [compareCP]
  | cons x as ih =>
    intro b
    cases b with
    | nil => simp [compareCP]
    | cons y bs =>
      simp only [compareCP]
      by_cases h1 : x.toNat < y.toNat
      · rw [if_neg (by omega), if_pos h1, if_pos h1]
        decide
      · by_cases h2 : y.toNat < x.toNat
        · rw [if_pos h2, if_neg h1, if_pos h2]
        · rw [if_neg h2, if_neg (by omega), if_neg h1, if_neg (by omega)]
          exact ih bs

theorem compareCP_eq_zero_iff (a : List Char) : ∀ (b : List Char), compareCP a b = 0 ↔ a = b := by
  induction a with
  | nil =>
    intro b
    cases b <;> simp [compareCP]
  | cons x as ih =>
    intro b
    cases b with
    | nil => simp [compareCP]
    | cons y bs =>
      simp only [compareCP]
      by_cases h1 : x.toNat < y.toNat
      · rw [if_pos h1]
        constructor
        · intro h; omega
        · intro h
          injection h with h3 h4
          subst h3
          omega
      · by_cases h2 : y.toNat < x.toNat
        · rw [if_neg h1, if_pos h2]
          constructor
          · intro h; omega
          · intro h
            injection h with h3 h4
            subst h3
            omega
        · rw [if_neg h1, if_neg h2]
          have hxy : x = y := char_eq_of_toNat_eq x y (by omega)
          subst hxy
          constructor
          · intro h
            rw [(ih bs).mp h]
          · intro h
            injection h with h3 h4
            exact (ih bs).mpr h4

theorem compareCP_trans_le (a : List Char) :
    ∀ (b c : List Char), compareCP a b ≤ 0 → compareCP b c ≤ 0 → compareCP a c ≤ 0 := by
  induction a with
  | nil =>
    intro b c _ _
    cases c <;> simp [compareCP]
  | cons x as ih =>
    intro b c hab hbc
    cases b with
    | nil => simp [compareCP] at hab
    | cons y bs =>
      cases c with
      | nil => simp [compareCP] at hbc
      | cons z cs =>
        simp only [compareCP] at hab hbc ⊢
        by_cases hxy : x.toNat < y.toNat
        · by_cases hyz : y.toNat < z.toNat
          · rw [if_pos (by omega)]
            omega
          · by_cases hzy : z.toNat < y.toNat
            · rw [if_pos hzy, if_neg (by omega)] at hbc
              omega
            · rw [if_pos (by omega)]
              omega
        · by_cases hyx : y.toNat < x.toNat
          · rw [if_neg hxy, if_pos hyx] at hab
            omega
          · by_cases hyz : y.toNat < z.toNat
            · rw [if_pos (by omega)]
              omega
            · by_cases hzy : z.toNat < y.toNat
              · rw [if_neg hyz, if_pos hzy] at hbc
                omega
              · rw [if_neg (by omega), if_neg (by omega)]
                rw [if_neg hxy, if_neg hyx] at hab
                rw [if_neg hyz, if_neg hzy] at hbc
                exact ih bs cs hab hbc

theorem string_eq_of_data_eq (a b : String) (h : a.data = b.data) : a = b := by
  cases a
  cases b
  exact congrArg String.mk h

theorem localeCompare_eq_zero_iff (a b : String) : localeCompare a b = 0 ↔ a = b := by
  unfold localeCompare
  rw [compareCP_eq_zero_iff]
  constructor
  · exact string_eq_of_data_eq a b
  · intro h; rw [h]

/-- `compareItems a b ≤ 0`: `a` sorts no later than `b`. -/
def cmpLe (a b : DocItem) : Prop :=
  compareItems a b ≤ 0

theorem compareItems_total (x y : DocItem) (h : ¬compareItems y x < 0) :
    compareItems x y ≤ 0 := by
  unfold compareItems at *
  by_cases hk : kindIndex y.kind ≠ kindIndex x.kind
  · rw [if_pos hk] at h
    rw [if_pos (by omega)]
    omega
  · rw [if_neg hk] at h
    rw [if_neg (by omega)]
    unfold localeCompare at *
    rw [compareCP_swap] at h
    omega

theorem compareItems_trans_le (x y z : DocItem)
    (h1 : compareItems x y ≤ 0) (h2 : compareItems y z ≤ 0) :
    compareItems x z ≤ 0 := by
  unfold compareItems at *
  by_cases hxy : kindIndex x.kind ≠ kindIndex y.kind
  · rw [if_pos hxy] at h1
    by_cases hyz : kindIndex y.kind ≠ kindIndex z.kind
    · rw [if_pos hyz] at h2
      rw [if_pos (by omega)]
      omega
    · rw [if_pos (by omega)]
      omega
  · rw [if_neg hxy] at h1
    by_cases hyz : kindIndex y.kind ≠ kindIndex z.kind
    · rw [if_pos hyz] at h2
      rw [if_pos (by omega)]
      omega
    · rw [if_neg (by omega)]
      rw [if_neg hyz] at h2
      unfold localeCompare at *
      exact compareCP_trans_le _ _ _ h1 h2

theorem compareItems_eq_zero (y z : DocItem) (h : compareItems y z = 0) :
    kindIndex y.kind = kindIndex z.kind ∧ y.name = z.name := by
  unfold compareItems at h
  by_cases hk : kindIndex y.kind ≠ kindIndex z.kind
  · rw [if_pos hk] at h
    omega
  · rw [if_neg hk] at h
    exact ⟨by omega, (localeCompare_eq_zero_iff _ _).mp h⟩

theorem compareItems_congr (x y z : DocItem) (hyx : compareItems y x < 0)
    (hy : compareItems y z = 0) (hx : compareItems x z = 0) : False := by
  rcases compareItems_eq_zero y z hy with ⟨hk1, hn1⟩
  rcases compareItems_eq_zero x z hx with ⟨hk2, hn2⟩
  unfold compareItems at hyx
  rw [if_neg (by omega)] at hyx
  rw [hn1, hn2] at hyx
  rw [(localeCompare_eq_zero_iff _ _).mpr rfl] at hyx
  omega

theorem insertItem_pairwise (x : DocItem) (l : List DocItem)
    (h : List.Pairwise cmpLe l) : List.Pairwise cmpLe (insertItem x l) := by
  induction l with
  | nil => simp [insertItem, List.pairwise_singleton]
  | cons y rest ih =>
    rcases List.pairwise_cons.mp h with ⟨hy, hrest⟩
    by_cases hc : compareItems y x < 0
    · simp only [insertItem, if_pos hc]
      rw [List.pairwise_cons]
      refine ⟨?_, ih hrest⟩
      intro z hz
      rcases List.mem_cons.mp ((insertItem_perm x rest).mem_iff.mp hz) with h2 | h2
      · subst h2
        exact le_of_lt hc
      · exact hy z h2
    · simp only [insertItem, if_neg hc]
      rw [List.pairwise_cons]
      refine ⟨?_, h⟩
      intro z hz
      rcases List.mem_cons.mp hz with h2 | h2
      · subst h2
        exact compareItems_total x z hc
      · exact compareItems_trans_le x y z (compareItems_total x y hc) (hy z h2)

theorem sortItems_pairwise (items : List DocItem) :
    List.Pairwise cmpLe (sortItems items) := by
  induction items with
  | nil => simp [sortItems]
  | cons x rest ih =>
    exact insertItem_pairwise x (sortItems rest) ih

theorem insertItem_filter_key (x : DocItem) (z : DocItem) (l : List DocItem) :
    (insertItem x l).filter (fun y => decide (compareItems y z = 0)) =
      (if compareItems x z = 0 then [x] else []) ++
        l.filter (fun y => decide (compareItems y z = 0)) := by
  induction l with
  | nil =>
    simp only [insertItem]
    by_cases hx : compareItems x z = 0
    · simp [List.filter, hx]
    · simp [List.filter, hx]
  | cons y rest ih =>
    by_cases hc : compareItems y x < 0
    · simp only [insertItem, if_pos hc]
      by_cases hx : compareItems x z = 0
      · have hy : ¬compareItems y z = 0 := by
          intro hy
          exact compareItems_congr x y z hc hy hx
        rw [if_pos hx]
        rw [List.filter_cons_of_neg (by simpa using hy), ih, if_pos hx,
          List.filter_cons_of_neg (by simpa using hy)]
      · rw [if_neg hx]
        by_cases hy : compareItems y z = 0
        · rw [List.filter_cons_of_pos (by simpa using hy), ih, if_neg hx,
            List.filter_cons_of_pos (by simpa using hy)]
          rfl
        · rw [List.filter_cons_of_neg (by simpa using hy), ih, if_neg hx,
            List.filter_cons_of_neg (by simpa using hy)]
    · simp only [insertItem, if_neg hc]
      by_cases hx : compareItems x z = 0
      · rw [if_pos hx, List.filter_cons_of_pos (by simpa using hx)]
        rfl
      · rw [if_neg hx, List.filter_cons_of_neg (by simpa using hx)]
        rfl

/-- Stability of the sorting pass: the subsequence of items comparing equal to
any fixed key is exactly the corresponding subsequence of the input. -/
theorem sortItems_stable (items : List DocItem) (z : DocItem) :
    (sortItems items).filter (fun y => decide (compareItems y z = 0)) =
      items.filter (fun y => decide (compareItems y z = 0)) := by
  induction items with
  | nil => rfl
  | cons x rest ih =>
    have hstep : sortItems (x :: rest) = insertItem x (sortItems rest) := rfl
    rw [hstep, insertItem_filter_key x z (sortItems rest), ih]
    by_cases hx : compareItems x z = 0
    · rw [if_pos hx, List.filter_cons_of_pos (by simpa using hx)]
      rfl
    · rw [if_neg hx, List.filter_cons_of_neg (by simpa using hx)]
      rfl

/-! ## The TOC grouping preserves the sorted order -/

/-- The kinds of a list in first-occurrence order (the key order of the
insertion-ordered `Map` used by `formatTableOfContents`). -/
def firstKinds : List DocItem → List DocItemKind
  | [] => []
  | x :: rest => x.kind :: (firstKinds rest).filter (fun k => k ≠ x.kind)

theorem mem_firstKinds (l : List DocItem) (k : DocItemKind) :
    k ∈ firstKinds l ↔ ∃ y ∈ l, y.kind = k := by
  induction l with
  | nil => simp [firstKinds]
  | cons x rest ih =>
    constructor
    · intro h
      rcases List.mem_cons.mp h with h | h
      · exact ⟨x, List.mem_cons_self x rest, h.symm⟩
      · rcases ih.mp (List.mem_filter.mp h).1 with ⟨y, hy, hk⟩
        exact ⟨y, List.mem_cons_of_mem x hy, hk⟩
    · intro hex
      rcases hex with ⟨y, hy, hk⟩
      rcases List.mem_cons.mp hy with h | h
      · subst h
        exact List.mem_cons.mpr (Or.inl hk.symm)
      · by_cases hkx : k = x.kind
        · exact List.mem_cons.mpr (Or.inl hkx)
        · refine List.mem_cons.mpr (Or.inr (List.mem_filter.mpr ⟨ih.mpr ⟨y, h, hk⟩, ?_⟩))
          simpa using hkx

theorem firstKinds_nodup (l : List DocItem) : (firstKinds l).Nodup := by
  induction l with
  | nil => simp [firstKinds]
  | cons x rest ih =>
    simp only [firstKinds, List.nodup_cons]
    constructor
    · intro h
      rcases List.mem_filter.mp h with ⟨_, hne⟩
      simp at hne
    · exact ih.filter _

theorem firstKinds_concat (l : List DocItem) (x : DocItem) :
    firstKinds (l ++ [x]) =
      if x.kind ∈ firstKinds l then firstKinds l else firstKinds l ++ [x.kind] := by
  induction l with
  | nil => simp [firstKinds]
  | cons y l ih =>
    have hstep : firstKinds ((y :: l) ++ [x]) =
        y.kind :: (firstKinds (l ++ [x])).filter (fun k => k ≠ y.kind) := rfl
    rw [hstep, ih]
    by_cases hin : x.kind ∈ firstKinds l
    · rw [if_pos hin]
      have hcond : x.kind ∈ firstKinds (y :: l) := by
        by_cases hxy : x.kind = y.kind
        · simp [firstKinds, hxy]
        · simp only [firstKinds, List.mem_cons, List.mem_filter]
          exact Or.inr ⟨hin, by simpa using hxy⟩
      rw [if_pos hcond]
      rfl
    · rw [if_neg hin, List.filter_append]
      by_cases hxy : x.kind = y.kind
      · have hcond : x.kind ∈ firstKinds (y :: l) := by simp [firstKinds, hxy]
        rw [if_pos hcond]
        have : List.filter (fun k => k ≠ y.kind) [x.kind] = [] := by
          simp [List.filter, hxy]
        rw [this, List.append_nil]
        rfl
      · have hcond : x.kind ∉ firstKinds (y :: l) := by
          simp only [firstKinds, List.mem_cons, List.mem_filter]
          intro h
          rcases h with h | h
          · exact hxy h
          · exact hin h.1
        rw [if_neg hcond]
        have : List.filter (fun k => k ≠ y.kind) [x.kind] = [x.kind] := by
          simp [List.filter, hxy]
        rw [this]
        rfl

theorem map_congr_fun {α β : Type} (l : List α) (f g : α → β)
    (h : ∀ a ∈ l, f a = g a) : l.map f = l.map g := by
  induction l with
  | nil => rfl
  | cons x rest ih =>
    simp only [List.map_cons]
    rw [h x (List.mem_cons_self x rest), ih (fun a ha => h a (List.mem_cons_of_mem x ha))]

theorem flatMap_congr_fun {α β : Type} (l : List α) (f g : α → List β)
    (h : ∀ a ∈ l, f a = g a) : l.flatMap f = l.flatMap g := by
  induction l with
  | nil => rfl
  | cons x rest ih =>
    simp only [List.flatMap_cons]
    rw [h x (List.mem_cons_self x rest), ih (fun a ha => h a (List.mem_cons_of_mem x ha))]

theorem flatMap_of_map {α β γ : Type} (l : List α) (f : α → β) (g : β → List γ) :
    (l.map f).flatMap g = l.flatMap (fun a => g (f a)) := by
  induction l with
  | nil => rfl
  | cons x rest ih =>
    simp only [List.map_cons, List.flatMap_cons]
    rw [ih]

theorem insertGrouped_map_not_mem (ks : List DocItemKind) (f : DocItemKind → List DocItem)
    (x : DocItem) (h : x.kind ∉ ks) :
    insertGrouped (ks.map (fun k => (k, f k))) x =
      ks.map (fun k => (k, f k)) ++ [(x.kind, [x])] := by
  induction ks with
  | nil => rfl
  | cons k ks ih =>
    have hk : k ≠ x.kind := by
      intro hk
      exact h (hk ▸ List.mem_cons_self k ks)
    simp only [List.map_cons, insertGrouped, if_neg hk]
    rw [ih (fun hmem => h (List.mem_cons_of_mem k hmem))]
    rfl

theorem insertGrouped_map_mem (ks : List DocItemKind) (f : DocItemKind → List DocItem)
    (x : DocItem) (hmem : x.kind ∈ ks) (hnd : ks.Nodup) :
    insertGrouped (ks.map (fun k => (k, f k))) x =
      ks.map (fun k => (k, if k = x.kind then f k ++ [x] else f k)) := by
  induction ks with
  | nil => simp at hmem
  | cons k ks ih =>
    rcases List.nodup_cons.mp hnd with ⟨hknot, hnd2⟩
    by_cases hk : k = x.kind
    · simp only [List.map_cons, insertGrouped, if_pos hk]
      congr 1
      apply map_congr_fun
      intro a ha
      have : a ≠ x.kind := by
        intro hax
        exact hknot (by rw [hk, ← hax]; exact ha)
      rw [if_neg this]
    · rcases List.mem_cons.mp hmem with h2 | h2
      · exact absurd h2.symm hk
      · simp only [List.map_cons, insertGrouped, if_neg hk]
        rw [ih h2 hnd2]

theorem groupByKind_concat (l : List DocItem) (x : DocItem) :
    groupByKind (l ++ [x]) = insertGrouped (groupByKind l) x := by
  unfold groupByKind
  rw [List.foldl_concat]

theorem groupByKind_eq_firstKinds (l : List DocItem) :
    groupByKind l =
      (firstKinds l).map (fun k => (k, l.filter (fun y => decide (y.kind = k)))) := by
  induction l using List.reverseRecOn with
  | nil => rfl
  | append_singleton l x ih =>
    rw [groupByKind_concat, ih, firstKinds_concat]
    by_cases hin : x.kind ∈ firstKinds l
    · rw [if_pos hin]
      rw [insertGrouped_map_mem (firstKinds l) _ x hin (firstKinds_nodup l)]
      apply map_congr_fun
      intro k _
      rw [List.filter_append]
      by_cases hk : k = x.kind
      · rw [if_pos hk]
        have : List.filter (fun y => decide (y.kind = k)) [x] = [x] := by
          simp [List.filter, hk]
        rw [this]
      · rw [if_neg hk]
        have : List.filter (fun y => decide (y.kind = k)) [x] = [] := by
          simp only [List.filter]
          rw [decide_eq_false (by intro h; exact hk h.symm)]
        rw [this, List.append_nil]
    · rw [if_neg hin]
      rw [insertGrouped_map_not_mem (firstKinds l) _ x hin, List.map_append]
      congr 1
      · apply map_congr_fun
        intro k hk
        have hne : k ≠ x.kind := by
          intro h
          exact hin (h ▸ hk)
        rw [List.filter_append]
        have : List.filter (fun y => decide (y.kind = k)) [x] = [] := by
          simp only [List.filter]
          rw [decide_eq_false (by intro h; exact hne h.symm)]
        rw [this, List.append_nil]
      · simp only [List.map_cons, List.map_nil]
        have h1 : List.filter (fun y => decide (y.kind = x.kind)) l = [] := by
          apply List.filter_eq_nil_iff.mpr
          intro y hy
          simp only [decide_eq_true_eq]
          intro hk
          exact hin ((mem_firstKinds l x.kind).mpr ⟨y, hy, hk⟩)
        have h2 : List.filter (fun y => decide (y.kind = x.kind)) [x] = [x] := by
          simp [List.filter]
        rw [List.filter_append, h1, h2]
        rfl

/-- Equal kinds occur contiguously: each element's kind either continues in
the next element or never occurs again. -/
def Grouped : List DocItem → Prop
  | [] => True
  | x :: rest =>
    Grouped rest ∧
      (rest.head?.map DocItem.kind = some x.kind ∨ x.kind ∉ rest.map DocItem.kind)

theorem grouped_flatten (l : List DocItem) (hg : Grouped l) :
    (firstKinds l).flatMap (fun k => l.filter (fun y => decide (y.kind = k))) = l := by
  induction l with
  | nil => rfl
  | cons x rest ih =>
    rcases hg with ⟨hg2, hx⟩
    have hstep : firstKinds (x :: rest) =
        x.kind :: (firstKinds rest).filter (fun k => k ≠ x.kind) := rfl
    rw [hstep, List.flatMap_cons]
    have hhead : List.filter (fun y => decide (y.kind = x.kind)) (x :: rest) =
        x :: List.filter (fun y => decide (y.kind = x.kind)) rest := by
      rw [List.filter_cons_of_pos (by simp)]
    rw [hhead]
    have htail : ((firstKinds rest).filter (fun k => k ≠ x.kind)).flatMap
        (fun k => List.filter (fun y => decide (y.kind = k)) (x :: rest)) =
        ((firstKinds rest).filter (fun k => k ≠ x.kind)).flatMap
        (fun k => List.filter (fun y => decide (y.kind = k)) rest) := by
      apply flatMap_congr_fun
      intro k hk
      have hne : k ≠ x.kind := by simpa using (List.mem_filter.mp hk).2
      rw [List.filter_cons_of_neg (by simp; intro h; exact hne h.symm)]
    rw [htail]
    rcases hx with hx | hx
    · rcases rest with _ | ⟨y, t⟩
      · simp at hx
      · have hyk : y.kind = x.kind := by
          simpa using hx
        have hfk : firstKinds (y :: t) =
            x.kind :: (firstKinds t).filter (fun k => k ≠ x.kind) := by
          have : firstKinds (y :: t) = y.kind :: (firstKinds t).filter (fun k => k ≠ y.kind) := rfl
          rw [this, hyk]
        have hfilterstable : (firstKinds (y :: t)).filter (fun k => k ≠ x.kind) =
            (firstKinds t).filter (fun k => k ≠ x.kind) := by
          rw [hfk, List.filter_cons_of_neg (by simp), List.filter_filter]
          apply List.filter_congr
          intro k _
          simp [Bool.and_self]
        have hih := ih hg2
        rw [hfk, List.flatMap_cons] at hih
        rw [hfilterstable]
        simpa using hih
    · have hnone : List.filter (fun y => decide (y.kind = x.kind)) rest = [] := by
        apply List.filter_eq_nil_iff.mpr
        intro y hy
        simp only [decide_eq_true_eq]
        intro hk
        exact hx (List.mem_map.mpr ⟨y, hy, hk⟩)
      have hall : (firstKinds rest).filter (fun k => k ≠ x.kind) = firstKinds rest := by
        apply List.filter_eq_self.mpr
        intro k hk
        simp only [decide_eq_true_eq, ne_eq]
        intro hke
        rcases (mem_firstKinds rest k).mp hk with ⟨y, hy, hyk⟩
        exact hx (List.mem_map.mpr ⟨y, hy, by rw [hyk, hke]⟩)
      rw [hnone, hall, ih hg2]
      rfl

theorem kindIndex_inj (k1 k2 : DocItemKind) (h : kindIndex k1 = kindIndex k2)
    (hr : isRenderableKind k1 = true) : k1 = k2 := by
  cases k1 <;> cases k2 <;> simp_all [kindIndex, isRenderableKind]

theorem cmpLe_kindIndex_le (a b : DocItem) (h : cmpLe a b) :
    kindIndex a.kind ≤ kindIndex b.kind := by
  unfold cmpLe compareItems at h
  by_cases hk : kindIndex a.kind ≠ kindIndex b.kind
  · rw [if_pos hk] at h
    omega
  · omega

theorem grouped_of_pairwise (l : List DocItem)
    (hp : List.Pairwise cmpLe l)
    (hren : ∀ y ∈ l, isRenderableKind y.kind = true) : Grouped l := by
  induction l with
  | nil => trivial
  | cons x rest ih =>
    rcases List.pairwise_cons.mp hp with ⟨hx, hrest⟩
    refine ⟨ih hrest (fun y hy => hren y (List.mem_cons_of_mem x hy)), ?_⟩
    rcases rest with _ | ⟨y, t⟩
    · right
      simp
    · by_cases hy : y.kind = x.kind
      · left
        simpa using hy
      · right
        intro hmem
        rcases List.mem_map.mp hmem with ⟨z, hz, hzk⟩
        have hxy : kindIndex x.kind ≤ kindIndex y.kind :=
          cmpLe_kindIndex_le x y (hx y (List.mem_cons_self y t))
        have hxz : kindIndex x.kind = kindIndex z.kind := by rw [hzk]
        rcases List.mem_cons.mp hz with h2 | h2
        · exact hy (h2 ▸ hzk)
        · have hyz : kindIndex y.kind ≤ kindIndex z.kind :=
            cmpLe_kindIndex_le y z ((List.pairwise_cons.mp hrest).1 z h2)
          have heq : kindIndex x.kind = kindIndex y.kind := by omega
          exact hy (kindIndex_inj x.kind y.kind heq
            (hren x (List.mem_cons_self _ _))).symm

/-- The two-functions scenario: a function named "B" declared first. -/
def exFnB : DocItem :=
  { name := "B", kind := DocItemKind.Function, returnType := "void",
    location := ⟨"/test/file.ts", 1⟩ }

/-- The two-functions scenario: a function named "A" declared second. -/
def exFnA : DocItem :=
  { name := "A", kind := DocItemKind.Function, returnType := "void",
    location := ⟨"/test/file.ts", 2⟩ }

/-- C2: `formatMarkdown` stably sorts items with the fixed kind priority
Class < Interface < Function < TypeAlias < Enum and then by name
(`sortItems` is a permutation, pairwise ordered by the source comparator, and
stable: every equal-key subsequence is preserved); the flattened TOC group
order equals the sorted body order whenever all items have renderable kinds;
and in the two-functions scenario "B", "A" the sorted order (hence both the
body order and the TOC order) is "A" before "B". -/
theorem formatMarkdown_sorts_items (items : List DocItem) :
    (sortItems items).Perm items ∧
    List.Pairwise cmpLe (sortItems items) ∧
    (∀ z : DocItem,
      (sortItems items).filter (fun y => decide (compareItems y z = 0)) =
        items.filter (fun y => decide (compareItems y z = 0))) ∧
    ((∀ item ∈ items, isRenderableKind item.kind = true) →
      (groupByKind (sortItems items)).flatMap Prod.snd = sortItems items) ∧
    ((sortItems [exFnB, exFnA]).map DocItem.name = ["A", "B"] ∧
      (groupByKind (sortItems [exFnB, exFnA])).flatMap Prod.snd =
        sortItems [exFnB, exFnA]) := by
  refine ⟨sortItems_perm items, sortItems_pairwise items, sortItems_stable items, ?_, ?_⟩
  · intro hren
    have hren2 : ∀ y ∈ sortItems items, isRenderableKind y.kind = true := by
      intro y hy
      exact hren y ((sortItems_perm items).mem_iff.mp hy)
    have hg := grouped_of_pairwise (sortItems items) (sortItems_pairwise items) hren2
    rw [groupByKind_eq_firstKinds, flatMap_of_map]
    exact grouped_flatten (sortItems items) hg
  · constructor
    · decide
    · decide

/-- Witness for C2: the grouped TOC order equals the sorted order for the
concrete two-functions input. -/
theorem formatMarkdown_sorts_items_witness :
    (groupByKind (sortItems [exFnB, exFnA])).flatMap Prod.snd =
      sortItems [exFnB, exFnA] :=
  (formatMarkdown_sorts_items [exFnB, exFnA]).2.2.2.1 (by decide)

/-! ## C10: non-renderable top-level kinds -/

theorem isRenderableKind_iff_kindIndex (k : DocItemKind) :
    isRenderableKind k = true ↔ 0 ≤ kindIndex k := by
  cases k <;> simp [isRenderableKind, kindIndex]

/-- C10: a top-level item whose kind is not one of the five renderable kinds
sorts before all renderable items (no renderable item is followed by a
non-renderable one), is listed in the table of contents under the "Other"
heading with a link to its slug, and produces no body block. -/
theorem nonrenderable_item_behaviour (items : List DocItem) (options : MarkdownOptions)
    (item : DocItem) (hmem : item ∈ items)
    (hother : isRenderableKind item.kind = false) :
    List.Pairwise
      (fun a b => isRenderableKind a.kind = true → isRenderableKind b.kind = true)
      (sortItems items) ∧
    getKindHeading item.kind = "Other" ∧
    SubStr ("## " ++ getKindHeading item.kind ++ "\n\n") (formatMarkdown items options) ∧
    SubStr ("- [" ++ item.name ++ "](#" ++ getSlug item.name ++ ")\n")
      (formatMarkdown items options) ∧
    formatItemBlock item options = "" := by
  have hsorted : item ∈ sortItems items := mem_sortItems hmem
  refine ⟨?_, ?_, ?_, ?_, ?_⟩
  · apply (sortItems_pairwise items).imp
    intro a b hab hra
    rw [isRenderableKind_iff_kindIndex] at hra ⊢
    have := cmpLe_kindIndex_le a b hab
    omega
  · cases hk : item.kind <;> simp_all [isRenderableKind, getKindHeading]
  · rcases groupByKind_mem (sortItems items) item hsorted with ⟨g, hg, _, hk⟩
    apply toc_substr_formatMarkdown
    have hgroup : SubStr ("## " ++ getKindHeading item.kind ++ "\n\n")
        (tocGroup options.tocDepth g) := by
      unfold tocGroup
      rw [hk]
      apply SubStr.appendR
      apply SubStr.appendR
      exact substr_refl _
    exact hgroup.trans
      (substr_strConcat (tocGroup options.tocDepth) (groupByKind (sortItems items)) g hg
        |>.appendL "# Table of Contents\n\n")
  · apply toc_substr_formatMarkdown
    exact (tocLine_substr_tocEntry options.tocDepth item.kind item).trans
      (tocEntry_substr_of_mem (sortItems items) options.tocDepth item hsorted)
  · cases hk : item.kind <;> simp_all [isRenderableKind, formatItemBlock]

/-- Concrete top-level Property item used by the C10 witness. -/
def c10Item : DocItem :=
  { name := "orphan", kind := DocItemKind.Property }

/-- Witness for C10 at a concrete top-level Property item. -/
theorem nonrenderable_item_behaviour_witness :
    List.Pairwise
      (fun a b => isRenderableKind a.kind = true → isRenderableKind b.kind = true)
      (sortItems [c10Item]) ∧
    getKindHeading c10Item.kind = "Other" ∧
    SubStr ("## " ++ getKindHeading c10Item.kind ++ "\n\n") (formatMarkdown [c10Item] c1Opts) ∧
    SubStr ("- [" ++ c10Item.name ++ "](#" ++ getSlug c10Item.name ++ ")\n")
      (formatMarkdown [c10Item] c1Opts) ∧
    formatItemBlock c10Item c1Opts = "" :=
  nonrenderable_item_behaviour [c10Item] c1Opts c10Item (List.mem_singleton.mpr rfl) rfl

/-! ## Parser-side collaborator model (`ts-morph` surface consumed by
`src/parser/extractors`)

A tag's `getComment?.()` either throws, returns `undefined`, returns a string,
or returns an array of nodes (modelled by the text of each node, with
per-node accessor failures already collapsed to `""` as the source does). -/

inductive CommentV where
  | str (s : String)
  | arr (parts : List String)
deriving DecidableEq, Repr

inductive CommentResult where
  | throws
  | value (v : Option CommentV)
deriving DecidableEq, Repr

structure JSDocTagDecl where
  tagName : String
  text : String
  comment : CommentResult
deriving DecidableEq, Repr

structure JSDocBlock where
  description : String
  tags : List JSDocTagDecl
deriving DecidableEq, Repr

structure ParameterDecl where
  name : String
  typeText : String
  isOptional : Bool := false
  initializer : Option String := none
  filePath : String := ""
  line : Nat := 0
deriving DecidableEq, Repr

structure PropertyDecl where
  name : String
  jsDocs : List JSDocBlock := []
  typeText : String := ""
  isStatic : Bool := false
  isReadonly : Bool := false
  hasQuestionToken : Bool := false
  filePath : String := ""
  line : Nat := 0
deriving DecidableEq, Repr

structure MethodDecl where
  name : String
  jsDocs : List JSDocBlock := []
  parameters : List ParameterDecl := []
  returnTypeText : String := ""
  isStatic : Bool := false
  isAsync : Bool := false
  typeParameterTexts : List String := []
  filePath : String := ""
  line : Nat := 0
deriving DecidableEq, Repr

structure CtorDecl where
  jsDocs : List JSDocBlock := []
  parameters : List ParameterDecl := []
  filePath : String := ""
  line : Nat := 0
deriving DecidableEq, Repr

structure FunctionDecl where
  name : Option String := none
  jsDocs : List JSDocBlock := []
  parameters : List ParameterDecl := []
  returnTypeText : String := ""
  typeParameterTexts : List String := []
  filePath : String := ""
  line : Nat := 0
deriving DecidableEq, Repr

structure ClassDecl where
  name : Option String := none
  jsDocs : List JSDocBlock := []
  properties : List PropertyDecl := []
  methods : List MethodDecl := []
  constructors : List CtorDecl := []
  extendsText : Option String := none
  implementsTexts : List String := []
  typeParameterTexts : List String := []
  filePath : String := ""
  line : Nat := 0
deriving DecidableEq, Repr

structure InterfaceDecl where
  name : String
  jsDocs : List JSDocBlock := []
  properties : List PropertyDecl := []
  methods : List MethodDecl := []
  extendsTexts : List String := []
  typeParameterTexts : List String := []
  filePath : String := ""
  line : Nat := 0
deriving DecidableEq, Repr

structure EnumMemberDecl where
  name : String
  value : Option String := none
  jsDocs : List JSDocBlock := []
deriving DecidableEq, Repr

structure EnumDecl where
  name : String
  jsDocs : List JSDocBlock := []
  members : List EnumMemberDecl := []
  filePath : String := ""
  line : Nat := 0
deriving DecidableEq, Repr

structure TypeAliasDecl where
  name : String
  jsDocs : List JSDocBlock := []
  typeText : String := ""
  typeParameterTexts : List String := []
  filePath : String := ""
  line : Nat := 0
deriving DecidableEq, Repr

structure SourceFileModel where
  functions : List FunctionDecl := []
  classes : List ClassDecl := []
  interfaces : List InterfaceDecl := []
  enums : List EnumDecl := []
  typeAliases : List TypeAliasDecl := []
deriving Repr

/-! ## The two regular expressions of the JSDoc extractor

`PARAM_NAME_REGEX` is anchored: one or more word characters, optionally
followed by whitespace and a rest that `.` can cross (so no line
terminators up to the end).  The per-parameter search pattern is unanchored
and case-insensitive: an optional literal `@param` marker plus whitespace,
the parameter name captured as group 1, a word boundary, whitespace, and an
optional non-empty remainder captured as group 2. -/

/-- Matcher for the anchored pattern of `PARAM_NAME_REGEX` applied with
`String.prototype.match`; returns the captured word when the whole text
matches. -/
def paramNameMatch (text : List Char) : Option (List Char) :=
  let w := text.takeWhile jsIsWordChar
  let r := text.dropWhile jsIsWordChar
  if w.isEmpty then none
  else if r.isEmpty then some w
  else if (match r.head? with | some c => jsIsSpace c | none => false) then
    (if (r.dropWhile jsIsSpace).all (fun c => !jsIsNewline c) then some w else none)
  else none

/-- Case-insensitive literal match at the current position: returns the
consumed (original-case) characters and the remaining text. -/
def matchLitCI : List Char → List Char → Option (List Char × List Char)
  | [], text => some ([], text)
  | _ :: _, [] => none
  | p :: ps, c :: cs =>
    if p.toLower = c.toLower then
      (matchLitCI ps cs).map (fun r => (c :: r.1, r.2))
    else none

/-- Is the optional character a word character (out-of-bounds counts as
non-word)? -/
def wordOpt : Option Char → Bool
  | some c => jsIsWordChar c
  | none => false

/-- The `\b` assertion between two positions. -/
def boundaryOK (prev next : Option Char) : Bool :=
  wordOpt prev != wordOpt next

/-- Match `name\b\s*(.+)?` at the current position (`prev` is the character
just before it, for the boundary check): returns the characters consumed by
group 1 and the optional group 2 capture. -/
def matchNameTail (pname : List Char) (prev : Option Char) (text : List Char) :
    Option (List Char × Option (List Char)) :=
  match matchLitCI pname text with
  | none => none
  | some (consumed, rest) =>
    let prevB := match consumed.getLast? with
      | some c => some c
      | none => prev
    if boundaryOK prevB rest.head? then
      let afterWs := rest.dropWhile jsIsSpace
      let cap := afterWs.takeWhile (fun c => !jsIsNewline c)
      some (consumed, if cap.isEmpty then none else some cap)
    else none

/-- One attempt of the search pattern at a fixed position: the regex engine
first tries to take the optional `(?:@param\s+)?` group, then proceeds
without it. -/
def matchAttempt (pname : List Char) (prev : Option Char) (text : List Char) :
    Option (List Char × Option (List Char)) :=
  let withMarker :=
    match matchLitCI ("@param".data) text with
    | none => none
    | some (_, rest1) =>
      match rest1.head? with
      | some c =>
        if jsIsSpace c then
          matchNameTail pname ((rest1.takeWhile jsIsSpace).getLast?)
            (rest1.dropWhile jsIsSpace)
        else none
      | none => none
  match withMarker with
  | some r => some r
  | none => matchNameTail pname prev text

/-- Left-to-right scan of the unanchored search (earliest match wins). -/
def paramSearch (pname : List Char) : Option Char → List Char →
    Option (List Char × Option (List Char))
  | prev, [] => matchAttempt pname prev []
  | prev, c :: rest =>
    match matchAttempt pname prev (c :: rest) with
    | some r => some r
    | none => paramSearch pname (some c) rest

/-- `tagText.match(paramRegex)` for the compiled per-parameter pattern. -/
def paramTagMatch (pname text : List Char) : Option (List Char × Option (List Char)) :=
  paramSearch pname none text

/-! ## JSDoc extraction (`src/parser/extractors/jsdoc.ts`) -/

/-- The catch-branch fallback of `extractJSDocInfo`: strip a leading
identifier token (and following whitespace) for `@param` tags, use the whole
trimmed text otherwise. -/
def stripLeadingWordWs (l : List Char) : List Char :=
  match l.head? with
  | some c => if jsIsWordChar c then (l.dropWhile jsIsWordChar).dropWhile jsIsSpace else l
  | none => l

/-- The catch-branch fallback comment text. -/
def tagCommentFallback (tagName text : String) : String :=
  if tagName = "param" then jsTrim ⟨stripLeadingWordWs text.data⟩ else jsTrim text

/-- The guarded `tag.getComment?.()` read of `extractJSDocInfo`: a throwing
accessor falls back to the literal tag text; `undefined` and `""` are falsy
and leave the comment empty; an array of nodes is joined with spaces. -/
def extractTagComment (t : JSDocTagDecl) : String :=
  match t.comment with
  | CommentResult.throws => tagCommentFallback t.tagName t.text
  | CommentResult.value none => ""
  | CommentResult.value (some (CommentV.str s)) => if s = "" then "" else s
  | CommentResult.value (some (CommentV.arr parts)) => String.intercalate " " parts

/-- One tag of the first JSDoc block, converted to a `JSDocTagInfo`. -/
def processTag (t : JSDocTagDecl) : JSDocTagInfo :=
  let comment := extractTagComment t
  if t.tagName = "param" then
    match paramNameMatch t.text.data with
    | some w => { tag := "param", name := ⟨w⟩, description := jsTrim comment }
    | none => { tag := "param", name := "", description := jsTrim comment }
  else
    { tag := t.tagName, name := "", description := jsTrim comment }

/-- `extractJSDocInfo` from the source: absent on a missing or empty block
list, otherwise built from the first block only.  Note the description is
stored as returned by `getDescription()`, without trimming. -/
def extractJSDocInfo : Option (List JSDocBlock) → Option JSDocInfo
  | none => none
  | some [] => none
  | some (b :: _) => some { description := b.description, tags := b.tags.map processTag }

/-! ## Parameter description resolution (`extractParameterDescription`) -/

/-- The body of the tag loop of `extractParameterDescription`: `some` exactly
when the loop returns at this tag, carrying the returned string. -/
def tagParamResult (paramName : String) (t : JSDocTagDecl) : Option String :=
  if t.tagName = "param" then
    match paramTagMatch paramName.data t.text.data with
    | some (g1, g2) =>
      if g1 = paramName.data then
        match t.comment with
        | CommentResult.value (some (CommentV.str s)) =>
          if s = "" then g2.map (fun d => jsTrim ⟨d⟩) else some (jsTrim s)
        | CommentResult.value (some (CommentV.arr parts)) =>
          some (jsTrim (String.intercalate " " parts))
        | CommentResult.value none => g2.map (fun d => jsTrim ⟨d⟩)
        | CommentResult.throws => g2.map (fun d => jsTrim ⟨d⟩)
      else none
    | none => none
  else none

/-- The inner tag loop. -/
def scanTags (paramName : String) : List JSDocTagDecl → Option String
  | [] => none
  | t :: rest =>
    match tagParamResult paramName t with
    | some d => some d
    | none => scanTags paramName rest

/-- The outer block loop. -/
def scanBlocks (paramName : String) : List JSDocBlock → Option String
  | [] => none
  | b :: rest =>
    match scanTags paramName b.tags with
    | some d => some d
    | none => scanBlocks paramName rest

/-- `extractParameterDescription` from the source (the `length === 0` guard
coincides with the loop yielding nothing on an empty list). -/
def extractParameterDescription (param : ParameterDecl)
    (jsDocs : Option (List JSDocBlock)) : String :=
  match jsDocs with
  | none => ""
  | some blocks => (scanBlocks param.name blocks).getD ""

/-! ## Declaration extraction (`src/parser/extractors/declarations.ts`) -/

/-- `extractParameterDoc` from the source. -/
def extractParameterDoc (param : ParameterDecl) : ParamD :=
  { name := param.name,
    type := param.typeText,
    description := "",
    location := ⟨param.filePath, param.line⟩,
    isOptional := param.isOptional,
    defaultValue := param.initializer }

/-- `extractParametersWithJSDoc` from the source: the direct raw-tag scan,
falling back to the parsed `JSDocInfo` tags. -/
def extractParametersWithJSDoc (parameters : List ParameterDecl)
    (jsDocs : Option (List JSDocBlock)) (jsDocInfo : Option JSDocInfo) : List ParamD :=
  parameters.map (fun param =>
    let paramDoc := extractParameterDoc param
    let description := extractParameterDescription param jsDocs
    if description ≠ "" then { paramDoc with description := description }
    else
      match jsDocInfo with
      | some info =>
        match info.tags.find? (fun tg => tg.tag == "param" && tg.name == param.name) with
        | some paramTag =>
          if paramTag.description ≠ "" then { paramDoc with description := paramTag.description }
          else paramDoc
        | none => paramDoc
      | none => paramDoc)

/-- `extractFunctionDoc` from the source. -/
def extractFunctionDoc (func : FunctionDecl) : DocItem :=
  let jsDocInfo := extractJSDocInfo (some func.jsDocs)
  { name := func.name.getD "anonymous",
    kind := DocItemKind.Function,
    description := func.jsDocs.head?.map (fun b => jsTrim b.description),
    location := ⟨func.filePath, func.line⟩,
    jsDoc := jsDocInfo,
    parameters := extractParametersWithJSDoc func.parameters (some func.jsDocs) jsDocInfo,
    returnType := func.returnTypeText,
    typeParameters := func.typeParameterTexts }

/-- `extractPropertyDoc` from the source. -/
def extractPropertyDoc (prop : PropertyDecl) : PropD :=
  { name := prop.name,
    description := prop.jsDocs.head?.map (fun b => jsTrim b.description),
    location := ⟨prop.filePath, prop.line⟩,
    jsDoc := extractJSDocInfo (some prop.jsDocs),
    type := prop.typeText,
    isStatic := prop.isStatic,
    isReadonly := prop.isReadonly,
    isOptional := prop.hasQuestionToken }

/-- `extractMethodDoc` from the source. -/
def extractMethodDoc (method : MethodDecl) : MethodD :=
  let methodJsDocInfo := extractJSDocInfo (some method.jsDocs)
  { name := method.name,
    description := method.jsDocs.head?.map (fun b => jsTrim b.description),
    location := ⟨method.filePath, method.line⟩,
    jsDoc := methodJsDocInfo,
    parameters := extractParametersWithJSDoc method.parameters (some method.jsDocs) methodJsDocInfo,
    returnType := method.returnTypeText,
    isStatic := method.isStatic,
    isAsync := method.isAsync,
    typeParameters := method.typeParameterTexts }

/-- `extractConstructorDoc` from the source: constructors are modelled as
methods named "constructor" whose return type is the enclosing class name,
never static, never async. -/
def extractConstructorDoc (ctor : CtorDecl) (className : String) : MethodD :=
  let ctorJsDocInfo := extractJSDocInfo (some ctor.jsDocs)
  { name := "constructor",
    description := ctor.jsDocs.head?.map (fun b => jsTrim b.description),
    location := ⟨ctor.filePath, ctor.line⟩,
    jsDoc := ctorJsDocInfo,
    parameters := extractParametersWithJSDoc ctor.parameters (some ctor.jsDocs) ctorJsDocInfo,
    returnType := className,
    isStatic := false,
    isAsync := false }

/-- `extractClassDoc` from the source.  `cls.getName()` is `undefined` for an
anonymous class; the record's `name` field then holds the empty string (the
source stores the raw `undefined`), while the constructor return type uses
the `"Unknown"` fallback spelled out in the source. -/
def extractClassDoc (cls : ClassDecl) : DocItem :=
  { name := cls.name.getD "",
    kind := DocItemKind.Class,
    description := cls.jsDocs.head?.map (fun b => jsTrim b.description),
    location := ⟨cls.filePath, cls.line⟩,
    jsDoc := extractJSDocInfo (some cls.jsDocs),
    properties := cls.properties.map extractPropertyDoc,
    methods := cls.methods.map extractMethodDoc,
    constructors := cls.constructors.map
      (fun ctor => extractConstructorDoc ctor (cls.name.getD "Unknown")),
    extendsClass := cls.extendsText,
    implementsList := cls.implementsTexts,
    typeParameters := cls.typeParameterTexts }

/-- `extractInterfaceProperties` from the source (interface members are never
static). -/
def extractInterfacePropertiesM (iface : InterfaceDecl) : List PropD :=
  iface.properties.map (fun prop =>
    { name := prop.name,
      description := prop.jsDocs.head?.map (fun b => jsTrim b.description),
      location := ⟨prop.filePath, prop.line⟩,
      jsDoc := extractJSDocInfo (some prop.jsDocs),
      type := prop.typeText,
      isStatic := false,
      isReadonly := prop.isReadonly,
      isOptional := prop.hasQuestionToken })

/-- `extractInterfaceMethods` from the source (interface methods are never
static and never async). -/
def extractInterfaceMethodsM (iface : InterfaceDecl) : List MethodD :=
  iface.methods.map (fun method =>
    let methodJsDocInfo := extractJSDocInfo (some method.jsDocs)
    { name := method.name,
      description := method.jsDocs.head?.map (fun b => jsTrim b.description),
      location := ⟨method.filePath, method.line⟩,
      jsDoc := methodJsDocInfo,
      parameters := extractParametersWithJSDoc method.parameters (some method.jsDocs)
        methodJsDocInfo,
      returnType := method.returnTypeText,
      isStatic := false,
      isAsync := false,
      typeParameters := method.typeParameterTexts })

/-- `extractInterfaceDoc` from the source. -/
def extractInterfaceDoc (iface : InterfaceDecl) : DocItem :=
  { name := iface.name,
    kind := DocItemKind.Interface,
    description := iface.jsDocs.head?.map (fun b => jsTrim b.description),
    location := ⟨iface.filePath, iface.line⟩,
    jsDoc := extractJSDocInfo (some iface.jsDocs),
    properties := extractInterfacePropertiesM iface,
    methods := extractInterfaceMethodsM iface,
    extendsList := iface.extendsTexts,
    typeParameters := iface.typeParameterTexts }

/-- `extractEnumDoc` from the source (`member.getValue()?.toString()` is
modelled by the optional member value text). -/
def extractEnumDoc (enumDecl : EnumDecl) : DocItem :=
  { name := enumDecl.name,
    kind := DocItemKind.Enum,
    description := enumDecl.jsDocs.head?.map (fun b => jsTrim b.description),
    location := ⟨enumDecl.filePath, enumDecl.line⟩,
    jsDoc := extractJSDocInfo (some enumDecl.jsDocs),
    members := enumDecl.members.map (fun member =>
      { name := member.name,
        value := member.value,
        description := member.jsDocs.head?.map (fun b => jsTrim b.description) }) }

/-- `extractTypeAliasDoc` from the source. -/
def extractTypeAliasDoc (typeAlias : TypeAliasDecl) : DocItem :=
  { name := typeAlias.name,
    kind := DocItemKind.TypeAlias,
    description := typeAlias.jsDocs.head?.map (fun b => jsTrim b.description),
    location := ⟨typeAlias.filePath, typeAlias.line⟩,
    jsDoc := extractJSDocInfo (some typeAlias.jsDocs),
    typeText := typeAlias.typeText,
    typeParameters := typeAlias.typeParameterTexts }

/-- `extractDocumentation` from the source: functions, then classes, then
interfaces, then enums, then type aliases, each in file order. -/
def extractDocumentation (sourceFile : SourceFileModel) : List DocItem :=
  sourceFile.functions.map extractFunctionDoc ++
    sourceFile.classes.map extractClassDoc ++
    sourceFile.interfaces.map extractInterfaceDoc ++
    sourceFile.enums.map extractEnumDoc ++
    sourceFile.typeAliases.map extractTypeAliasDoc

/-! ## C9: extraction order -/

theorem map_kind_replicate (k : DocItemKind) {α : Type} (f : α → DocItem)
    (hf : ∀ x, (f x).kind = k) (l : List α) :
    (l.map f).map DocItem.kind = List.replicate l.length k := by
  induction l with
  | nil => rfl
  | cons x rest ih =>
    simp only [List.map_cons, List.length_cons, List.replicate_succ]
    rw [hf x, ih]

theorem filter_map_kind_self (k : DocItemKind) {α : Type} (f : α → DocItem)
    (hf : ∀ x, (f x).kind = k) (l : List α) :
    (l.map f).filter (fun it => decide (it.kind = k)) = l.map f := by
  apply List.filter_eq_self.mpr
  intro a ha
  rcases List.mem_map.mp ha with ⟨x, _, hx⟩
  simp [← hx, hf x]

theorem filter_map_kind_nil (k : DocItemKind) {α : Type} (f : α → DocItem)
    (hf : ∀ x, (f x).kind ≠ k) (l : List α) :
    (l.map f).filter (fun it => decide (it.kind = k)) = [] := by
  apply List.filter_eq_nil_iff.mpr
  intro a ha
  rcases List.mem_map.mp ha with ⟨x, _, hx⟩
  simp [← hx, hf x]

/-- C9: `extractDocumentation` returns the file's top-level items grouped by
kind in the order Function, Class, Interface, Enum, TypeAlias, and within
each kind the items keep the file order (witnessed by their names). -/
theorem extractDocumentation_grouped_order (sf : SourceFileModel) :
    (extractDocumentation sf).map DocItem.kind =
      List.replicate sf.functions.length DocItemKind.Function ++
      List.replicate sf.classes.length DocItemKind.Class ++
      List.replicate sf.interfaces.length DocItemKind.Interface ++
      List.replicate sf.enums.length DocItemKind.Enum ++
      List.replicate sf.typeAliases.length DocItemKind.TypeAlias ∧
    ((extractDocumentation sf).filter
        (fun it => decide (it.kind = DocItemKind.Function))).map DocItem.name =
      sf.functions.map (fun f => f.name.getD "anonymous") ∧
    ((extractDocumentation sf).filter
        (fun it => decide (it.kind = DocItemKind.Class))).map DocItem.name =
      sf.classes.map (fun c => c.name.getD "") ∧
    ((extractDocumentation sf).filter
        (fun it => decide (it.kind = DocItemKind.Interface))).map DocItem.name =
      sf.interfaces.map InterfaceDecl.name ∧
    ((extractDocumentation sf).filter
        (fun it => decide (it.kind = DocItemKind.Enum))).map DocItem.name =
      sf.enums.map EnumDecl.name ∧
    ((extractDocumentation sf).filter
        (fun it => decide (it.kind = DocItemKind.TypeAlias))).map DocItem.name =
      sf.typeAliases.map TypeAliasDecl.name := by
  have hfn : ∀ x, (extractFunctionDoc x).kind = DocItemKind.Function := fun _ => rfl
  have hcl : ∀ x, (extractClassDoc x).kind = DocItemKind.Class := fun _ => rfl
  have hif : ∀ x, (extractInterfaceDoc x).kind = DocItemKind.Interface := fun _ => rfl
  have hen : ∀ x, (extractEnumDoc x).kind = DocItemKind.Enum := fun _ => rfl
  have hta : ∀ x, (extractTypeAliasDoc x).kind = DocItemKind.TypeAlias := fun _ => rfl
  refine ⟨?_, ?_, ?_, ?_, ?_, ?_⟩
  · unfold extractDocumentation
    simp only [List.map_append]
    rw [map_kind_replicate _ _ hfn, map_kind_replicate _ _ hcl, map_kind_replicate _ _ hif,
      map_kind_replicate _ _ hen, map_kind_replicate _ _ hta]
  · unfold extractDocumentation
    simp only [List.filter_append]
    rw [filter_map_kind_self _ _ hfn, filter_map_kind_nil _ _ (fun x => by simp [hcl x]),
      filter_map_kind_nil _ _ (fun x => by simp [hif x]),
      filter_map_kind_nil _ _ (fun x => by simp [hen x]),
      filter_map_kind_nil _ _ (fun x => by simp [hta x])]
    simp [List.map_map]
    intro a _
    rfl
  · unfold extractDocumentation
    simp only [List.filter_append]
    rw [filter_map_kind_self _ _ hcl, filter_map_kind_nil _ _ (fun x => by simp [hfn x]),
      filter_map_kind_nil _ _ (fun x => by simp [hif x]),
      filter_map_kind_nil _ _ (fun x => by simp [hen x]),
      filter_map_kind_nil _ _ (fun x => by simp [hta x])]
    simp [List.map_map]
    intro a _
    rfl
  · unfold extractDocumentation
    simp only [List.filter_append]
    rw [filter_map_kind_self _ _ hif, filter_map_kind_nil _ _ (fun x => by simp [hfn x]),
      filter_map_kind_nil _ _ (fun x => by simp [hcl x]),
      filter_map_kind_nil _ _ (fun x => by simp [hen x]),
      filter_map_kind_nil _ _ (fun x => by simp [hta x])]
    simp [List.map_map]
    intro a _
    rfl
  · unfold extractDocumentation
    simp only [List.filter_append]
    rw [filter_map_kind_self _ _ hen, filter_map_kind_nil _ _ (fun x => by simp [hfn x]),
      filter_map_kind_nil _ _ (fun x => by simp [hcl x]),
      filter_map_kind_nil _ _ (fun x => by simp [hif x]),
      filter_map_kind_nil _ _ (fun x => by simp [hta x])]
    simp [List.map_map]
    intro a _
    rfl
  · unfold extractDocumentation
    simp only [List.filter_append]
    rw [filter_map_kind_self _ _ hta, filter_map_kind_nil _ _ (fun x => by simp [hfn x]),
      filter_map_kind_nil _ _ (fun x => by simp [hcl x]),
      filter_map_kind_nil _ _ (fun x => by simp [hif x]),
      filter_map_kind_nil _ _ (fun x => by simp [hen x])]
    simp [List.map_map]
    intro a _
    rfl

/-! ## C8: constructor extraction -/

/-- C8: every constructor of an extracted class is a method named
"constructor" with `isStatic = false`, `isAsync = false`, and a return type
equal to the enclosing class's name (with the source's "Unknown" fallback
when the class is anonymous). -/
theorem constructor_extraction_spec (cls : ClassDecl) (md : MethodD)
    (hmem : md ∈ (extractClassDoc cls).constructors) :
    md.name = "constructor" ∧ md.isStatic = false ∧ md.isAsync = false ∧
    md.returnType = cls.name.getD "Unknown" ∧
    (∀ nm : String, cls.name = some nm → md.returnType = nm) := by
  have hmem2 : md ∈ cls.constructors.map
      (fun ctor => extractConstructorDoc ctor (cls.name.getD "Unknown")) := hmem
  rcases List.mem_map.mp hmem2 with ⟨ctor, _, heq⟩
  subst heq
  refine ⟨rfl, rfl, rfl, rfl, ?_⟩
  intro nm hnm
  rw [hnm]
  rfl

/-- Concrete class with a constructor used by the C8 witness. -/
def c8Cls : ClassDecl :=
  { name := some "Engine", constructors := [{ parameters := [] }] }

/-- Witness for C8 at a concrete class with one constructor. -/
theorem constructor_extraction_spec_witness :
    (extractConstructorDoc { parameters := [] } "Engine").name = "constructor" ∧
    (extractConstructorDoc { parameters := [] } "Engine").isStatic = false ∧
    (extractConstructorDoc { parameters := [] } "Engine").isAsync = false ∧
    (extractConstructorDoc { parameters := [] } "Engine").returnType =
      c8Cls.name.getD "Unknown" ∧
    (∀ nm : String, c8Cls.name = some nm →
      (extractConstructorDoc { parameters := [] } "Engine").returnType = nm) :=
  constructor_extraction_spec c8Cls (extractConstructorDoc { parameters := [] } "Engine")
    (by simp [extractClassDoc, c8Cls])

/-! ## C6: zero comment blocks means absent, not empty -/

/-- C6: `extractJSDocInfo` is absent exactly when the block list is missing
or empty, only the first block ever contributes, and a declaration with zero
comment blocks extracts with `jsDoc` absent and `description` absent (never
an empty string). -/
theorem jsdoc_absent_on_missing_blocks :
    (∀ jsDocs : Option (List JSDocBlock),
      extractJSDocInfo jsDocs = none ↔ (jsDocs = none ∨ jsDocs = some [])) ∧
    (∀ (b : JSDocBlock) (rest : List JSDocBlock),
      extractJSDocInfo (some (b :: rest)) = extractJSDocInfo (some [b])) ∧
    (∀ func : FunctionDecl, func.jsDocs = [] →
      (extractFunctionDoc func).jsDoc = none ∧
        (extractFunctionDoc func).description = none) := by
  refine ⟨?_, ?_, ?_⟩
  · intro jsDocs
    match jsDocs with
    | none => simp [extractJSDocInfo]
    | some [] => simp [extractJSDocInfo]
    | some (b :: rest) => simp [extractJSDocInfo]
  · intro b rest
    rfl
  · intro func hempty
    constructor
    · simp [extractFunctionDoc, hempty, extractJSDocInfo]
    · simp [extractFunctionDoc, hempty]

/-- Witness for C6 at a concrete declaration with zero comment blocks. -/
theorem jsdoc_absent_on_missing_blocks_witness :
    (extractFunctionDoc { name := some "f", jsDocs := [] }).jsDoc = none ∧
    (extractFunctionDoc { name := some "f", jsDocs := [] }).description = none :=
  jsdoc_absent_on_missing_blocks.2.2 { name := some "f", jsDocs := [] } rfl

/-! ## C7: throwing comment accessors are absorbed -/

/-- C7: extraction never raises.  A throwing `getComment` accessor in
`extractJSDocInfo` behaves exactly as if the accessor had returned the
fallback text obtained by stripping a leading identifier token from the
tag's raw text; in `extractParameterDescription` it behaves exactly like an
absent comment (the trailing-text capture is used); and extraction always
returns a value on any block list. -/
theorem jsdoc_extraction_absorbs_throwing_accessors :
    (∀ (tagName text : String),
      processTag ⟨tagName, text, CommentResult.throws⟩ =
        processTag
          ⟨tagName, text,
            CommentResult.value (some (CommentV.str (tagCommentFallback tagName text)))⟩) ∧
    (∀ (nm tagName text : String),
      tagParamResult nm ⟨tagName, text, CommentResult.throws⟩ =
        tagParamResult nm ⟨tagName, text, CommentResult.value none⟩) ∧
    (∀ (b : JSDocBlock) (rest : List JSDocBlock),
      (extractJSDocInfo (some (b :: rest))).isSome = true) := by
  refine ⟨?_, ?_, ?_⟩
  · intro tagName text
    have hcomm : extractTagComment ⟨tagName, text, CommentResult.throws⟩ =
        extractTagComment
          ⟨tagName, text,
            CommentResult.value (some (CommentV.str (tagCommentFallback tagName text)))⟩ := by
      simp only [extractTagComment]
      by_cases h : tagCommentFallback tagName text = ""
      · rw [if_pos h, h]
      · rw [if_neg h]
    simp only [processTag, hcomm]
  · intro nm tagName text
    by_cases h1 : tagName = "param"
    · simp only [tagParamResult, if_pos h1]
    · simp only [tagParamResult, if_neg h1]
  · intro b rest
    rfl

/-! ## C5: the JSDocInfo description is stored untrimmed -/

/-- Concrete comment block whose description carries surrounding
whitespace (as `getDescription()` does). -/
def c5Block : JSDocBlock :=
  { description := " Adds two numbers\n", tags := [] }

/-- Counterexample to C5 as stated: `extractJSDocInfo` stores the first
block's description text verbatim, not trimmed. -/
theorem extractJSDocInfo_description_not_trimmed :
    (extractJSDocInfo (some [c5Block])).map JSDocInfo.description =
      some " Adds two numbers\n" ∧
    jsTrim c5Block.description = "Adds two numbers" ∧
    (extractJSDocInfo (some [c5Block])).map JSDocInfo.description ≠
      some (jsTrim c5Block.description) := by
  refine ⟨rfl, by decide, by decide⟩

/-- C5 amended: for a declaration with at least one comment block, the
`JSDocInfo` returned by `extractJSDocInfo` has `description` equal to the
first block's untagged description text verbatim (untrimmed); only the first
block contributes; the declaration-level `DocItem.description` is the first
block's description trimmed. -/
theorem extractJSDocInfo_first_block_description (b : JSDocBlock)
    (rest : List JSDocBlock) (func : FunctionDecl) :
    (extractJSDocInfo (some (b :: rest))).map JSDocInfo.description =
      some b.description ∧
    extractJSDocInfo (some (b :: rest)) = extractJSDocInfo (some [b]) ∧
    (extractFunctionDoc func).description =
      func.jsDocs.head?.map (fun blk => jsTrim blk.description) :=
  ⟨rfl, rfl, rfl⟩

/-! ## C4: parameter description resolution -/

/-- Whether a tag is a `@param` tag whose text matches the parameter's exact
name as the first captured word (the loop's matching condition). -/
def tagMatchesName (paramName : String) (t : JSDocTagDecl) : Bool :=
  t.tagName == "param" &&
    (match paramTagMatch paramName.data t.text.data with
      | some (g1, _) => g1 = paramName.data
      | none => false)

/-- Modelled from the claim's words (C4), for comparison with the source
behaviour: the description the claim assigns to a matched tag — its trimmed
comment text or, if unavailable, the trimmed text trailing the matched name,
else the empty string. -/
def claimTagDescription (paramName : String) (t : JSDocTagDecl) : String :=
  let trailing :=
    match paramTagMatch paramName.data t.text.data with
    | some (_, some d) => jsTrim ⟨d⟩
    | _ => ""
  match t.comment with
  | CommentResult.value (some (CommentV.str s)) => if s = "" then trailing else jsTrim s
  | CommentResult.value (some (CommentV.arr parts)) => jsTrim (String.intercalate " " parts)
  | _ => trailing

/-- Modelled from the claim's words (C4): "the first matching tag wins" —
the result is determined by the first tag matching the parameter's exact
name, whatever that tag yields. -/
def claimFirstMatchDescription (paramName : String) (blocks : List JSDocBlock) : String :=
  match (blocks.flatMap JSDocBlock.tags).find? (tagMatchesName paramName) with
  | some t => claimTagDescription paramName t
  | none => ""

/-- Concrete parameter for the C4 counterexample. -/
def c4Param : ParameterDecl :=
  { name := "foo", typeText := "string" }

/-- Concrete comment block for the C4 counterexample: the first `@param foo`
tag matches but yields no text (its comment accessor returns `undefined` and
there is no trailing text); the second matching tag carries "Second". -/
def c4Block : JSDocBlock :=
  { description := "",
    tags := [⟨"param", "foo", CommentResult.value none⟩,
      ⟨"param", "foo Second", CommentResult.value none⟩] }

/-- Counterexample to C4 as stated: the source skips a matching tag that
yields nothing and returns the second matching tag's text, while under
"the first matching tag wins" the result would be empty. -/
theorem extractParameterDescription_first_match_counterexample :
    extractParameterDescription c4Param (some [c4Block]) = "Second" ∧
    tagMatchesName "foo" ⟨"param", "foo", CommentResult.value none⟩ = true ∧
    claimFirstMatchDescription "foo" [c4Block] = "" ∧
    extractParameterDescription c4Param (some [c4Block]) ≠
      claimFirstMatchDescription "foo" [c4Block] := by
  refine ⟨by decide, by decide, by decide, by decide⟩

theorem findSome?_append {α β : Type} (f : α → Option β) (l1 l2 : List α) :
    (l1 ++ l2).findSome? f =
      match l1.findSome? f with
      | some b => some b
      | none => l2.findSome? f := by
  induction l1 with
  | nil => simp [List.findSome?]
  | cons x rest ih =>
    simp only [List.cons_append, List.findSome?]
    cases f x <;> simp [ih]

theorem scanTags_eq_findSome? (nm : String) (tags : List JSDocTagDecl) :
    scanTags nm tags = tags.findSome? (tagParamResult nm) := by
  induction tags with
  | nil => rfl
  | cons t rest ih =>
    simp only [scanTags, List.findSome?]
    cases tagParamResult nm t <;> simp [ih]

theorem scanBlocks_eq_findSome? (nm : String) (blocks : List JSDocBlock) :
    scanBlocks nm blocks = (blocks.flatMap JSDocBlock.tags).findSome? (tagParamResult nm) := by
  induction blocks with
  | nil => rfl
  | cons b rest ih =>
    simp only [scanBlocks, List.flatMap_cons, findSome?_append, scanTags_eq_findSome? nm b.tags]
    cases (b.tags.findSome? (tagParamResult nm)) <;> simp [ih]

/-- C4 amended: `extractParameterDescription` always returns a string (empty
when nothing is found); a description is produced only by a `@param` tag
whose text matches the parameter's exact name as the first captured word;
among matching tags, the first one that yields a truthy comment or trailing
text wins (matching tags yielding neither are skipped); and when the raw
scan yields the empty string, the extracted parameter's description falls
back to the first parsed `JSDocInfo` entry whose tag is "param" and whose
name equals the parameter's name. -/
theorem extractParameterDescription_spec :
    (∀ param : ParameterDecl, extractParameterDescription param none = "") ∧
    (∀ (param : ParameterDecl) (blocks : List JSDocBlock),
      extractParameterDescription param (some blocks) =
        ((blocks.flatMap JSDocBlock.tags).findSome? (tagParamResult param.name)).getD "") ∧
    (∀ (nm : String) (t : JSDocTagDecl) (d : String),
      tagParamResult nm t = some d → tagMatchesName nm t = true) ∧
    (∀ (param : ParameterDecl) (jsDocs : Option (List JSDocBlock)) (info : JSDocInfo),
      extractParameterDescription param jsDocs = "" →
      (extractParametersWithJSDoc [param] jsDocs (some info)).map ParamD.description =
        [match info.tags.find? (fun tg => tg.tag == "param" && tg.name == param.name) with
          | some tg => tg.description
          | none => ""]) := by
  refine ⟨fun _ => rfl, ?_, ?_, ?_⟩
  · intro param blocks
    simp only [extractParameterDescription, scanBlocks_eq_findSome?]
  · intro nm t d h
    unfold tagParamResult at h
    by_cases h1 : t.tagName = "param"
    · rw [if_pos h1] at h
      cases hm : paramTagMatch nm.data t.text.data with
      | none =>
        rw [hm] at h
        simp at h
      | some r =>
        rcases r with ⟨g1, g2⟩
        rw [hm] at h
        by_cases hg : g1 = nm.data
        · simp [tagMatchesName, h1, hm, hg]
        · simp [hg] at h
    · rw [if_neg h1] at h
      simp at h
  · intro param jsDocs info hempty
    simp only [extractParametersWithJSDoc, List.map_cons, List.map_nil]
    rw [hempty]
    simp only [ne_eq, not_true_eq_false, if_false]
    cases hf : info.tags.find? (fun tg => tg.tag == "param" && tg.name == param.name) with
    | none => rfl
    | some tg =>
      by_cases hd : tg.description = ""
      · simp [hd, extractParameterDoc]
      · simp [hd]

/-- Witness for C4's amended fallback clause at a concrete input. -/
theorem extractParameterDescription_spec_witness :
    (extractParametersWithJSDoc [c4Param] none
        (some { description := "", tags := [{ tag := "param", name := "foo", description := "from info" }] })).map
        ParamD.description = ["from info"] := by
  have h := extractParameterDescription_spec.2.2.2 c4Param none
    { description := "", tags := [{ tag := "param", name := "foo", description := "from info" }] }
    rfl
  simpa using h
